import Mathlib

/-!
# Brainwave Sync: frequency-program evaluator, pulse planner and PCM encoder

A shallow embedding of `src/app.js`.  JavaScript numbers are modelled as exact
elements of a linear ordered field `K` (rounding of IEEE doubles is abstracted
away); every definition is computable and can be evaluated at `K = ℚ`, while
the continuity statement is read at `K = ℝ`.
-/

namespace BrainwaveSync

set_option linter.unusedSectionVars false

/-! ## Data model -/

/-- The `endAction` option: `'hold'` or anything else (which stops playback). -/
inductive EndAction where
  | hold
  | stop
  deriving DecidableEq, Repr

/-- One entry of `opts.stages`: `{ beat, duration }`. -/
structure Stage (K : Type) where
  beat : K
  duration : K
  deriving Repr

/-- The fields of the `opts` object that the evaluator and the schedulers read. -/
structure Opts (K : Type) where
  startBeatHz : K
  stages : List (Stage K)
  endAction : EndAction := EndAction.hold
  deriving Repr

section Interpolator

variable {K : Type} [LinearOrderedField K]

/-- `getTotalDuration(opts)`: `opts.stages.reduce((sum, s) => sum + s.duration, 0)`. -/
def getTotalDuration (opts : Opts K) : K :=
  opts.stages.foldl (fun sum s => sum + s.duration) 0

/-- The `for (const stage of stages)` loop of `getBeatAt`, with the loop state
`cumulativeTime`, `previousBeat` passed explicitly; the empty list is the
fall-through `return previousBeat`. -/
def getBeatAtLoop (sec : K) : K → K → List (Stage K) → K
  | _, previousBeat, [] => previousBeat
  | cumulativeTime, previousBeat, stage :: rest =>
    let stageStartTime := cumulativeTime
    let stageEndTime := cumulativeTime + stage.duration
    if sec < stageEndTime then
      let timeIntoStage := sec - stageStartTime
      if stage.duration = 0 then previousBeat
      else
        let k := timeIntoStage / stage.duration
        previousBeat + (stage.beat - previousBeat) * k
    else getBeatAtLoop sec stageEndTime stage.beat rest

/-- `getBeatAt(sec, opts)`. -/
def getBeatAt (sec : K) (opts : Opts K) : K :=
  if sec ≤ 0 then opts.startBeatHz
  else getBeatAtLoop sec 0 opts.startBeatHz opts.stages

/-! ### Vocabulary of the specification (stage boundaries and anchors) -/

/-- Cumulative start time of stage `i`: the sum of the durations of the
stages before it. -/
def stageStart (stages : List (Stage K)) (i : Nat) : K :=
  ((stages.take i).map Stage.duration).sum

/-- Cumulative end time of stage `i`: the sum of the durations of stages `0..i`. -/
def stageEnd (stages : List (Stage K)) (i : Nat) : K :=
  ((stages.take (i + 1)).map Stage.duration).sum

/-- The anchor frequency in force when stage `i` begins: `startBeatHz` for the
first stage, the preceding stage's beat otherwise. -/
def previousAnchor (opts : Opts K) : Nat → K
  | 0 => opts.startBeatHz
  | j + 1 =>
    match opts.stages[j]? with
    | some s => s.beat
    | none => opts.startBeatHz

/-- The beat carried out of a prefix of stages that have all been passed:
the value of `previousBeat` after the loop body has run for each of them. -/
def anchorAfter (b : K) : List (Stage K) → K
  | [] => b
  | s :: pre => anchorAfter s.beat pre

/-- The smallest anchor frequency, `Math.min(startBeatHz, ...stages.map(s => s.beat))`. -/
def minAnchor (opts : Opts K) : K :=
  opts.stages.foldl (fun m s => min m s.beat) opts.startBeatHz

/-- The largest anchor frequency, `Math.max(startBeatHz, ...stages.map(s => s.beat))`. -/
def maxAnchor (opts : Opts K) : K :=
  opts.stages.foldl (fun m s => max m s.beat) opts.startBeatHz

/-- Every stage duration is non-negative. -/
def NonNegDurations (opts : Opts K) : Prop :=
  ∀ s ∈ opts.stages, 0 ≤ s.duration

end Interpolator

/-! ## PCM encoder (`bufferToWav`) -/

section Encoder

variable {K : Type} [LinearOrderedField K] [FloorRing K]

/-- The read-only view of an `AudioBuffer` that `bufferToWav` uses. -/
structure AudioBuffer (K : Type) where
  numberOfChannels : Nat
  length : Nat
  sampleRate : Nat
  getChannelData : Nat → List K

/-- `view.setUint16(pos, data, true)`: two little-endian bytes, a `RangeError`
(`none`) when they do not fit in the view. -/
def viewSetUint16 (view : List Nat) (pos data : Nat) : Option (List Nat) :=
  if pos + 2 ≤ view.length then
    some ((view.set pos (data % 256)).set (pos + 1) (data / 256 % 256))
  else none

/-- `view.setUint32(pos, data, true)`. -/
def viewSetUint32 (view : List Nat) (pos data : Nat) : Option (List Nat) :=
  if pos + 4 ≤ view.length then
    some ((((view.set pos (data % 256)).set (pos + 1) (data / 256 % 256)).set
      (pos + 2) (data / 65536 % 256)).set (pos + 3) (data / 16777216 % 256))
  else none

/-- `view.setInt16(pos, data, true)`: the two's-complement low 16 bits. -/
def viewSetInt16 (view : List Nat) (pos : Nat) (data : Int) : Option (List Nat) :=
  viewSetUint16 view pos (data % 65536).toNat

/-- The helper closure `setUint16(data)` acting on the pair `(view, pos)`:
write at `pos`, then `pos += 2`. -/
def setUint16 (data : Nat) (st : List Nat × Nat) : Option (List Nat × Nat) :=
  match viewSetUint16 st.1 st.2 data with
  | some view => some (view, st.2 + 2)
  | none => none

/-- The helper closure `setUint32(data)` acting on the pair `(view, pos)`:
write at `pos`, then `pos += 4`. -/
def setUint32 (data : Nat) (st : List Nat × Nat) : Option (List Nat × Nat) :=
  match viewSetUint32 st.1 st.2 data with
  | some view => some (view, st.2 + 4)
  | none => none

/-- `Math.max(-1, Math.min(1, x))`. -/
def clampSample (x : K) : K := max (-1) (min 1 x)

/-- Truncation toward zero of a number. -/
def truncate (x : K) : Int := if 0 ≤ x then ⌊x⌋ else ⌈x⌉

/-- `x | 0`: truncation toward zero followed by wrapping into the signed
32-bit range. -/
def toInt32 (x : K) : Int := (truncate x + 2147483648) % 4294967296 - 2147483648

/-- The two assignments to `sample` in the inner loop; `none` is the
`undefined` read past the end of a channel, which becomes `NaN` and then `0`. -/
def quantize : Option K → Int
  | none => 0
  | some x =>
    let sample := clampSample x
    toInt32 (if 1 / 2 + sample < 0 then sample * 32768 else sample * 32767)

/-- `channels[i][offset]`. -/
def channelSample (channels : List (List K)) (i offset : Nat) : Option K :=
  match channels[i]? with
  | some ch => ch[offset]?
  | none => none

/-- The `for (i = 0; i < numOfChan; i++)` loop writing one frame. -/
def writeFrame (channels : List (List K)) (offset : Nat) :
    List Nat → List Nat → Nat → Option (List Nat × Nat)
  | [], view, pos => some (view, pos)
  | i :: is, view, pos =>
    match viewSetInt16 view pos (quantize (channelSample channels i offset)) with
    | none => none
    | some view1 => writeFrame channels offset is view1 (pos + 2)

/-- The `while (pos < length)` loop; `none` when the fuel runs out or a write
falls outside the view. -/
def writeSamples (channels : List (List K)) (numOfChan length : Nat) :
    Nat → List Nat → Nat → Nat → Option (List Nat)
  | 0, view, pos, _ => if pos < length then none else some view
  | fuel + 1, view, pos, offset =>
    if pos < length then
      match writeFrame channels offset (List.range numOfChan) view pos with
      | none => none
      | some (view1, pos1) => writeSamples channels numOfChan length fuel view1 pos1 (offset + 1)
    else some view

/-- The header part of `bufferToWav`: the thirteen `setUint32`/`setUint16`
calls on a fresh zero-filled view of `length` bytes, from `pos = 0`. -/
def writeHeader (numOfChan sampleRate length : Nat) : Option (List Nat × Nat) :=
  some (List.replicate length 0, 0)
    >>= setUint32 0x46464952
    >>= setUint32 (length - 8)
    >>= setUint32 0x45564157
    >>= setUint32 0x20746d66
    >>= setUint32 16
    >>= setUint16 1
    >>= setUint16 numOfChan
    >>= setUint32 sampleRate
    >>= setUint32 (sampleRate * 2 * numOfChan)
    >>= setUint16 (numOfChan * 2)
    >>= setUint16 16
    >>= setUint32 0x61746164
    >>= fun st => setUint32 (length - st.2 - 4) st

/-- `bufferToWav(buffer)`: the bytes of the returned `ArrayBuffer`. -/
def bufferToWav (fuel : Nat) (buffer : AudioBuffer K) : Option (List Nat) :=
  let numOfChan := buffer.numberOfChannels
  let length := buffer.length * numOfChan * 2 + 44
  match writeHeader numOfChan buffer.sampleRate length with
  | none => none
  | some (view, pos) =>
    let channels := (List.range buffer.numberOfChannels).map buffer.getChannelData
    writeSamples channels numOfChan length fuel view pos 0

/-! ### Vocabulary of the specification (little-endian fields) -/

/-- The two little-endian bytes of an unsigned 16-bit field. -/
def le16 (n : Nat) : List Nat := [n % 256, n / 256 % 256]

/-- The four little-endian bytes of an unsigned 32-bit field. -/
def le32 (n : Nat) : List Nat :=
  [n % 256, n / 256 % 256, n / 65536 % 256, n / 16777216 % 256]

/-- The 44 header bytes in the order `bufferToWav` writes them, for a view of
`total` bytes. -/
def wavHeader (numOfChan sampleRate total : Nat) : List Nat :=
  [0x52, 0x49, 0x46, 0x46] ++ le32 (total - 8) ++ [0x57, 0x41, 0x56, 0x45]
    ++ [0x66, 0x6d, 0x74, 0x20] ++ le32 16 ++ le16 1 ++ le16 numOfChan
    ++ le32 sampleRate ++ le32 (sampleRate * 2 * numOfChan) ++ le16 (numOfChan * 2)
    ++ le16 16 ++ [0x64, 0x61, 0x74, 0x61] ++ le32 (total - 44)

/-- Reading an unsigned little-endian 16-bit field back from a byte list. -/
def readUint16LE (view : List Nat) (pos : Nat) : Option Nat :=
  match view[pos]?, view[pos + 1]? with
  | some b0, some b1 => some (b0 + 256 * b1)
  | _, _ => none

/-- Reading an unsigned little-endian 32-bit field back from a byte list. -/
def readUint32LE (view : List Nat) (pos : Nat) : Option Nat :=
  match view[pos]?, view[pos + 1]?, view[pos + 2]?, view[pos + 3]? with
  | some b0, some b1, some b2, some b3 => some (b0 + 256 * b1 + 65536 * b2 + 16777216 * b3)
  | _, _, _, _ => none

/-- Reading a signed little-endian 16-bit word back from a byte list. -/
def readInt16LE (view : List Nat) (pos : Nat) : Option Int :=
  match readUint16LE view pos with
  | some u => some (if u < 32768 then (u : Int) else (u : Int) - 65536)
  | none => none

/-- The two bytes `setInt16` stores for a signed value: the little-endian low
16 bits of its two's complement. -/
def int16Bytes (d : Int) : List Nat := le16 (d % 65536).toNat

/-- The bytes of one frame: for each channel index in `idx`, in order, the word
of that channel's quantized sample at frame `offset`. -/
def frameBytes (channels : List (List K)) (offset : Nat) (idx : List Nat) : List Nat :=
  idx.flatMap (fun i => int16Bytes (quantize (channelSample channels i offset)))

/-- The sample payload: frames in order (frame-major), channels in order inside
each frame (channel-minor). -/
def samplePayload (channels : List (List K)) (numOfChan frames : Nat) : List Nat :=
  (List.range frames).flatMap (fun f => frameBytes channels f (List.range numOfChan))

/-- The quantization as the specification words it: clamp to `[-1, 1]`, scale
negative values by 32768 and the others by 32767, truncate toward zero. -/
def quantizeBySign (x : K) : Int :=
  truncate (if clampSample x < 0 then clampSample x * 32768 else clampSample x * 32767)

end Encoder


/-! ## Pulsed-mode planning: offline loop and realtime scheduler -/

/-- The three automation calls of one pulse: `setValueAtTime(0, start)`,
`linearRampToValueAtTime(1, peak)`, `linearRampToValueAtTime(0, stop)`. -/
structure Pulse (K : Type) where
  start : K
  peak : K
  stop : K
  deriving Repr, DecidableEq

/-- The state of a `BrainwaveIso` instance that the scheduler reads and writes. -/
structure IsoEngine (K : Type) where
  opts : Opts K
  totalDuration : K
  started : Bool
  t0 : K
  pausedTime : K

/-- What one invocation of `schedulePulses` leaves behind: the engine state, the
pulses written to the gain parameter, and the argument of the invocation it has
booked with `setTimeout` (`none` when it returned without booking one). -/
structure Tick (K : Type) where
  engine : IsoEngine K
  pulses : List (Pulse K)
  next : Option K

/-- The state of a `BrainwaveBinaural` instance that the scheduler reads and
writes; `carrierHz` stands for `opts.carrierHz`. -/
structure BinauralEngine (K : Type) where
  opts : Opts K
  carrierHz : K
  totalDuration : K
  started : Bool
  t0 : K
  pausedTime : K

/-- What one invocation of `scheduleUpdates` leaves behind: the engine state, the
frequency ramps `linearRampToValueAtTime(newFreq, time)` written to the right
oscillator, and whether it has booked its next invocation with `setTimeout`. -/
structure UpdateTick (K : Type) where
  engine : BinauralEngine K
  ramps : List (K × K)
  rescheduled : Bool

/-- One entry of a preset's `stages`: `{ beat, hours, minutes }`. -/
structure Point (K : Type) where
  beat : K
  hours : K
  minutes : K

/-- The fields of a preset that `getOpts` turns into the schedule. -/
structure Preset (K : Type) where
  carrierHz : K
  startBeatHz : K
  totalPoints : K
  singlePointHours : K
  singlePointMinutes : K
  stages : List (Point K)
  endAction : EndAction

section Planner

variable {K : Type} [LinearOrderedField K]

/-- The isochronic `while (currentTime < totalDuration)` loop of `exportToWav`,
started at `currentTime`; it returns the pulses in the order they are written,
and `none` when the fuel runs out before the loop exits. -/
def exportIsoLoop (opts : Opts K) (totalDuration : K) : Nat → K → Option (List (Pulse K))
  | 0, currentTime => if currentTime < totalDuration then none else some []
  | fuel + 1, currentTime =>
    if currentTime < totalDuration then
      let beatHz := getBeatAt currentTime opts
      if beatHz ≤ 0 then exportIsoLoop opts totalDuration fuel (currentTime + 1 / 10)
      else
        let period := 1 / beatHz
        let pulseDuration := period / 2
        let peakTime := currentTime + pulseDuration / 2
        let endTime := currentTime + pulseDuration
        if endTime > totalDuration then some []
        else
          match exportIsoLoop opts totalDuration fuel (currentTime + period) with
          | some later => some (⟨currentTime, peakTime, endTime⟩ :: later)
          | none => none
    else some []

/-- `new BrainwaveIso(opts)`. -/
def IsoEngine.create (opts : Opts K) : IsoEngine K :=
  { opts := opts, totalDuration := getTotalDuration opts, started := false, t0 := 0,
    pausedTime := 0 }

/-- The state change of `stop()`: `started` becomes `false`. -/
def IsoEngine.stop (eng : IsoEngine K) : IsoEngine K :=
  if !eng.started then eng else { eng with started := false }

/-- The `while (nextPulseTime < now + scheduleAheadTime)` loop of
`schedulePulses`: the pulses written, and the final `nextPulseTime` (`none`
when the loop left through the stop branch); the outer `none` is fuel
exhaustion. -/
def schedulePulsesLoop (eng : IsoEngine K) (now : K) :
    Nat → K → Option (List (Pulse K) × Option K)
  | 0, nextPulseTime => if nextPulseTime < now + 1 / 5 then none else some ([], some nextPulseTime)
  | fuel + 1, nextPulseTime =>
    if nextPulseTime < now + 1 / 5 then
      let currentElapsed := nextPulseTime - eng.t0
      let beatHz := getBeatAt currentElapsed eng.opts
      if beatHz ≤ 0 then
        if eng.opts.endAction ≠ EndAction.hold ∧ currentElapsed > eng.totalDuration then
          some ([], none)
        else schedulePulsesLoop eng now fuel (nextPulseTime + 1 / 2)
      else
        let period := 1 / beatHz
        let pulseDuration := period / 2
        let peakTime := nextPulseTime + pulseDuration / 2
        let endTime := nextPulseTime + pulseDuration
        match schedulePulsesLoop eng now fuel (nextPulseTime + period) with
        | some (later, exit) => some (⟨nextPulseTime, peakTime, endTime⟩ :: later, exit)
        | none => none
    else some ([], some nextPulseTime)

/-- One invocation `schedulePulses(startTime)` at clock reading `now`.  The
end-of-program branch (`stopAllPlayback()`, which calls `engine.stop()` on the
active engine, or `this.stop()`) is the state change of `stop()` on this engine. -/
def schedulePulses (fuel : Nat) (eng : IsoEngine K) (now startTime : K) : Option (Tick K) :=
  if !eng.started then some ⟨eng, [], none⟩
  else
    let elapsed := now - eng.t0
    if eng.opts.endAction ≠ EndAction.hold ∧ elapsed > eng.totalDuration then
      some ⟨eng.stop, [], none⟩
    else
      match schedulePulsesLoop eng now fuel startTime with
      | none => none
      | some (pulses, none) => some ⟨eng.stop, pulses, none⟩
      | some (pulses, some nextPulseTime) => some ⟨eng, pulses, some nextPulseTime⟩

/-- The state change of `start(offset)` at clock reading `now`, before its call
`schedulePulses(now)`. -/
def IsoEngine.start (eng : IsoEngine K) (now offset : K) : IsoEngine K :=
  if eng.started then eng else { eng with t0 := now - offset, started := true }

/-- Successive timer-driven invocations of `schedulePulses`, one per clock
reading, each called with the `nextPulseTime` the previous one booked; the
pulses of all invocations in the order they are written. -/
def schedulePulsesRun (fuel : Nat) : IsoEngine K → List K → K → Option (List (Pulse K))
  | _, [], _ => some []
  | eng, now :: later, startTime =>
    match schedulePulses fuel eng now startTime with
    | none => none
    | some tick =>
      match tick.next with
      | none => some tick.pulses
      | some nextPulseTime =>
        match schedulePulsesRun fuel tick.engine later nextPulseTime with
        | some more => some (tick.pulses ++ more)
        | none => none

/-- The realtime path from elapsed time 0: `new BrainwaveIso(opts)`, `start(0)`
at the first clock reading, then one timer invocation per later reading. -/
def realtimePulses (fuel : Nat) (opts : Opts K) (now : K) (later : List K) :
    Option (List (Pulse K)) :=
  schedulePulsesRun fuel ((IsoEngine.create opts).start now 0) (now :: later) now

/-- A pulse moved from clock time to elapsed program time. -/
def Pulse.shift (t0 : K) (p : Pulse K) : Pulse K :=
  ⟨p.start - t0, p.peak - t0, p.stop - t0⟩

/-- The pulse that both paths write at cursor `c` when the beat there is positive. -/
def pulseAt (opts : Opts K) (c : K) : Pulse K :=
  ⟨c, c + 1 / getBeatAt c opts / 2 / 2, c + 1 / getBeatAt c opts / 2⟩

/-- The first `n` pulses of the stream that starts at cursor `c` and advances by
one period `1 / getBeatAt c` after each pulse. -/
def pulseStream (opts : Opts K) : Nat → K → List (Pulse K)
  | 0, _ => []
  | n + 1, c => pulseAt opts c :: pulseStream opts n (c + 1 / getBeatAt c opts)

/-- The advance of the cursor in one iteration of the offline loop that neither
exits nor breaks: `0.1` when the beat is not positive, one period otherwise. -/
def exportIsoStep (opts : Opts K) (c : K) : K :=
  if getBeatAt c opts ≤ 0 then 1 / 10 else 1 / getBeatAt c opts

/-- `elapsed()` of a `BrainwaveIso` at clock reading `now`. -/
def IsoEngine.elapsed (eng : IsoEngine K) (now : K) : K :=
  if eng.started then now - eng.t0 else 0

/-- `pause()` of a `BrainwaveIso` at clock reading `now`. -/
def IsoEngine.pause (eng : IsoEngine K) (now : K) : IsoEngine K :=
  if !eng.started then eng
  else
    let eng1 := { eng with pausedTime := eng.elapsed now }
    let eng2 := eng1.stop
    { eng2 with started := false }

/-- `start(offset)` of a `BrainwaveIso` in full, at clock reading `now`: nothing
when already started, otherwise the state change of `_build` and
`this.started = true` followed by the call `this.schedulePulses(now)`. -/
def IsoEngine.startFull (fuel : Nat) (eng : IsoEngine K) (now offset : K) : Option (Tick K) :=
  if eng.started then some ⟨eng, [], none⟩
  else schedulePulses fuel (eng.start now offset) now now

/-- `new BrainwaveBinaural(opts)`; `carrierHz` is `opts.carrierHz`. -/
def BinauralEngine.create (opts : Opts K) (carrierHz : K) : BinauralEngine K :=
  { opts := opts, carrierHz := carrierHz, totalDuration := getTotalDuration opts,
    started := false, t0 := 0, pausedTime := 0 }

/-- The state change of `stop()` of a `BrainwaveBinaural`. -/
def BinauralEngine.stop (eng : BinauralEngine K) : BinauralEngine K :=
  if !eng.started then eng else { eng with started := false }

/-- `elapsed()` of a `BrainwaveBinaural` at clock reading `now`. -/
def BinauralEngine.elapsed (eng : BinauralEngine K) (now : K) : K :=
  if eng.started then now - eng.t0 else 0

/-- `pause()` of a `BrainwaveBinaural` at clock reading `now`. -/
def BinauralEngine.pause (eng : BinauralEngine K) (now : K) : BinauralEngine K :=
  if !eng.started then eng
  else
    let eng1 := { eng with pausedTime := eng.elapsed now }
    let eng2 := eng1.stop
    { eng2 with started := false }

/-- One invocation `scheduleUpdates()` at clock reading `now`; the right
oscillator exists while the engine is started, so the ramp is always written.
The end-of-program branch is the state change of `stop()` on this engine. -/
def scheduleUpdates (eng : BinauralEngine K) (now : K) : UpdateTick K :=
  if !eng.started then ⟨eng, [], false⟩
  else
    let elapsed := now - eng.t0
    if eng.opts.endAction ≠ EndAction.hold ∧ elapsed > eng.totalDuration then
      ⟨eng.stop, [], false⟩
    else
      let beatHz := getBeatAt elapsed eng.opts
      let newFreq := eng.carrierHz + beatHz
      ⟨eng, [(newFreq, now + 1 / 10)], true⟩

/-- `start(offset)` of a `BrainwaveBinaural` in full, at clock reading `now`:
nothing when already started, otherwise `t0 = now - offset`,
`started = true` and the call `this.scheduleUpdates(now)`. -/
def BinauralEngine.startFull (eng : BinauralEngine K) (now offset : K) : UpdateTick K :=
  if eng.started then ⟨eng, [], false⟩
  else scheduleUpdates { eng with t0 := now - offset, started := true } now

/-- `getOpts()` for the active preset `currentPreset`. -/
def getOpts (currentPreset : Preset K) : Opts K :=
  let stages : List (Stage K) :=
    if currentPreset.totalPoints > 1 then
      currentPreset.stages.map
        (fun point => ⟨point.beat, point.hours * 3600 + point.minutes * 60⟩)
    else
      let duration :=
        currentPreset.singlePointHours * 3600 + currentPreset.singlePointMinutes * 60
      if duration > 0 then [⟨currentPreset.startBeatHz, duration⟩] else []
  { startBeatHz := currentPreset.startBeatHz, stages := stages,
    endAction := currentPreset.endAction }

/-- The cursor after `n` pulses of the stream that starts at cursor `c`. -/
def cursorAfter (opts : Opts K) : Nat → K → K
  | 0, c => c
  | n + 1, c => cursorAfter opts n (c + 1 / getBeatAt c opts)

/-- A pulse lies within the rendered range: it starts before `d` and ends no
later than `d`. -/
def Pulse.within (d : K) (p : Pulse K) : Bool :=
  decide (p.start < d) && decide (p.stop ≤ d)

/-- Every anchor of the program is the frequency `f`. -/
def ConstantBeat (opts : Opts K) (f : K) : Prop :=
  opts.startBeatHz = f ∧ ∀ s ∈ opts.stages, s.beat = f

end Planner

/-! ## Concrete programs used as test points -/

/-- `startBeatHz = 10` with the single stage `{beat 5, duration 1800}`. -/
def rampDown : Opts ℚ :=
  { startBeatHz := 10, stages := [⟨5, 1800⟩] }

/-- A program with a negative stage duration: the second stage runs backwards,
so the third stage `[5, 15)` overlaps the first stage `[0, 10)`. -/
def backwards : Opts ℚ :=
  { startBeatHz := 10, stages := [⟨5, 10⟩, ⟨7, -5⟩, ⟨9, 10⟩] }

/-- A program with a vertical jump at `t = 10`: a ramp from 10 Hz to 8 Hz over
ten seconds followed by a zero-duration stage with target 5 Hz. -/
def jumpAtTen : Opts ℚ :=
  { startBeatHz := 10, stages := [⟨8, 10⟩, ⟨5, 0⟩] }

/-- A program that consists of a single zero-duration stage. -/
def instantJump : Opts ℚ :=
  { startBeatHz := 10, stages := [⟨5, 0⟩] }

/-- A program whose total duration (5) is smaller than the end of its first
stage (10) because the second duration is negative. -/
def shrinking : Opts ℚ :=
  { startBeatHz := 10, stages := [⟨5, 10⟩, ⟨7, -5⟩] }

/-- A stereo buffer of three frames with samples inside and outside `[-1, 1]`. -/
def stereo : AudioBuffer ℚ :=
  { numberOfChannels := 2, length := 3, sampleRate := 44100,
    getChannelData := fun i => if i = 0 then [1, -1/4, -3/4] else [-1, 2, 0] }

/-- An all-zero mono buffer of `n` samples at 44100 Hz. -/
def silence (n : Nat) : AudioBuffer ℚ :=
  { numberOfChannels := 1, length := n, sampleRate := 44100,
    getChannelData := fun _ => List.replicate n 0 }

/-- A constant 4 Hz program of 10 seconds. -/
def steady4 : Opts ℚ :=
  { startBeatHz := 4, stages := [⟨4, 10⟩] }

/-- A program that starts at 0 Hz and ramps to 10 Hz over one second. -/
def fromZero : Opts ℚ :=
  { startBeatHz := 0, stages := [⟨10, 1⟩] }

/-- A program that sits at 0 Hz at `t = 0` and jumps to 4 Hz at once. -/
def lateJump : Opts ℚ :=
  { startBeatHz := 0, stages := [⟨4, 0⟩, ⟨4, 1⟩] }

/-- A constant 4 Hz program of 0.6 seconds. -/
def shortSteady : Opts ℚ :=
  { startBeatHz := 4, stages := [⟨4, 3 / 5⟩] }

/-- The constant `defaultPreset`. -/
def defaultPreset : Preset ℚ :=
  { carrierHz := 400, startBeatHz := 7, totalPoints := 1, singlePointHours := 0,
    singlePointMinutes := 30, stages := [], endAction := EndAction.hold }

/-- The entry 'Preset 2' of `initialDefaultPresets` in `loadPresetsAndState`:
`{ ...defaultPreset, startBeatHz: 10, stages: [{ beat: 5, hours: 0, minutes: 30 }] }`. -/
def preset2 : Preset ℚ :=
  { defaultPreset with startBeatHz := 10, stages := [⟨5, 0, 30⟩] }

/-- A 4 Hz program of 10 seconds that stops at its end. -/
def steady4Stop : Opts ℚ :=
  { startBeatHz := 4, stages := [⟨4, 10⟩], endAction := EndAction.stop }

/-- A `BrainwaveIso` for `opts` started at clock reading 0 with offset 0. -/
def isoPlaying (opts : Opts ℚ) : IsoEngine ℚ :=
  (IsoEngine.create opts).start 0 0

/-- A `BrainwaveBinaural` for `opts` (carrier 400 Hz) started at clock reading 0
with offset 0. -/
def binauralPlaying (opts : Opts ℚ) : BinauralEngine ℚ :=
  { BinauralEngine.create opts 400 with started := true }

section InterpolatorProofs

variable {K : Type} [LinearOrderedField K]

/-! ## Lemmas about the stage walk -/

theorem getBeatAtLoop_nil (sec c b : K) : getBeatAtLoop sec c b [] = b := rfl

theorem getBeatAtLoop_cons_lt (sec c b : K) (s : Stage K) (rest : List (Stage K))
    (h : sec < c + s.duration) (hd : s.duration ≠ 0) :
    getBeatAtLoop sec c b (s :: rest)
      = b + (s.beat - b) * ((sec - c) / s.duration) := by
  simp [getBeatAtLoop, h, hd]

theorem getBeatAtLoop_cons_ge (sec c b : K) (s : Stage K) (rest : List (Stage K))
    (h : c + s.duration ≤ sec) :
    getBeatAtLoop sec c b (s :: rest)
      = getBeatAtLoop sec (c + s.duration) s.beat rest := by
  simp [getBeatAtLoop, not_lt.mpr h]

theorem anchorAfter_nil (b : K) : anchorAfter b [] = b := rfl

theorem anchorAfter_cons (b : K) (s : Stage K) (pre : List (Stage K)) :
    anchorAfter b (s :: pre) = anchorAfter s.beat pre := rfl

/-- Walking past a prefix whose stages have non-negative durations and all end
no later than `sec`. -/
theorem getBeatAtLoop_skip (sec : K) (pre post : List (Stage K)) :
    ∀ (c b : K), (∀ s ∈ pre, 0 ≤ s.duration) →
      c + (pre.map Stage.duration).sum ≤ sec →
      getBeatAtLoop sec c b (pre ++ post)
        = getBeatAtLoop sec (c + (pre.map Stage.duration).sum) (anchorAfter b pre) post := by
  induction pre with
  | nil => intro c b _ _; simp [anchorAfter_nil]
  | cons s pre ih =>
    intro c b hnn hle
    have hs : 0 ≤ s.duration := hnn s (List.mem_cons_self _ _)
    have hpre : ∀ x ∈ pre, 0 ≤ x.duration := fun x hx => hnn x (List.mem_cons_of_mem _ hx)
    have hsum : 0 ≤ (pre.map Stage.duration).sum := by
      apply List.sum_nonneg
      intro x hx
      obtain ⟨y, hy, rfl⟩ := List.mem_map.mp hx
      exact hpre y hy
    simp only [List.map_cons, List.sum_cons] at hle ⊢
    have h1 : c + s.duration ≤ sec := by linarith
    rw [List.cons_append, getBeatAtLoop_cons_ge _ _ _ _ _ h1, anchorAfter_cons,
      ih (c + s.duration) s.beat hpre (by linarith)]
    congr 1
    ring

theorem sum_durations_nonneg (l : List (Stage K)) (h : ∀ s ∈ l, 0 ≤ s.duration) :
    0 ≤ (l.map Stage.duration).sum := by
  apply List.sum_nonneg
  intro x hx
  obtain ⟨y, hy, rfl⟩ := List.mem_map.mp hx
  exact h y hy

theorem foldl_duration (l : List (Stage K)) (a : K) :
    l.foldl (fun sum s => sum + s.duration) a = a + (l.map Stage.duration).sum := by
  induction l generalizing a with
  | nil => simp
  | cons s l ih => simp [List.foldl_cons, ih, add_assoc]

theorem getTotalDuration_eq_sum (p : Opts K) :
    getTotalDuration p = (p.stages.map Stage.duration).sum := by
  simp [getTotalDuration, foldl_duration]

theorem stageEnd_eq (stages : List (Stage K)) (i : Nat) (s : Stage K)
    (hs : stages[i]? = some s) :
    stageEnd stages i = stageStart stages i + s.duration := by
  induction stages generalizing i with
  | nil => simp at hs
  | cons x xs ih =>
    cases i with
    | zero =>
      simp at hs
      simp [stageEnd, stageStart, hs]
    | succ j =>
      simp at hs
      have := ih j hs
      simp only [stageEnd, stageStart, List.take_succ_cons, List.map_cons, List.sum_cons] at this ⊢
      rw [this, add_assoc]

theorem split_at_stage (stages : List (Stage K)) (i : Nat) (s : Stage K)
    (hs : stages[i]? = some s) :
    stages = stages.take i ++ s :: stages.drop (i + 1) := by
  induction stages generalizing i with
  | nil => simp at hs
  | cons x xs ih =>
    cases i with
    | zero => simp at hs; simp [hs]
    | succ j =>
      simp at hs
      simpa using ih j hs

theorem anchorAfter_take (p : Opts K) (i : Nat) (hi : i ≤ p.stages.length) :
    anchorAfter p.startBeatHz (p.stages.take i) = previousAnchor p i := by
  obtain ⟨b, stages, e⟩ := p
  simp only at hi ⊢
  cases i with
  | zero => simp [anchorAfter, previousAnchor]
  | succ j =>
    simp only [previousAnchor]
    induction stages generalizing b j with
    | nil => simp at hi
    | cons x xs ih =>
      cases j with
      | zero => simp [anchorAfter]
      | succ k =>
        have hk : k + 1 ≤ xs.length := by simpa using hi
        have := ih x.beat k hk
        have hlt : k < xs.length := hk
        simp only [List.take_succ_cons, anchorAfter_cons] at this ⊢
        rw [this]
        simp [List.getElem?_eq_getElem hlt]

theorem anchorAfter_take_succ (b : K) (stages : List (Stage K)) (j : Nat) (s : Stage K)
    (hs : stages[j]? = some s) :
    anchorAfter b (stages.take (j + 1)) = s.beat := by
  induction stages generalizing b j with
  | nil => simp at hs
  | cons x xs ih =>
    cases j with
    | zero => simp at hs; simp [anchorAfter, hs]
    | succ k =>
      simp at hs
      simpa [anchorAfter] using ih x.beat k hs

/-- Inside a stage of positive duration that follows a prefix of passed
stages, the walk interpolates linearly from the carried anchor. -/
theorem getBeatAt_split_interp (p : Opts K) (pre post : List (Stage K)) (s : Stage K)
    (t : K) (hsplit : p.stages = pre ++ s :: post) (hnn : ∀ x ∈ pre, 0 ≤ x.duration)
    (hd : 0 < s.duration) (ht : 0 < t) (h1 : (pre.map Stage.duration).sum ≤ t)
    (h2 : t < (pre.map Stage.duration).sum + s.duration) :
    getBeatAt t p = anchorAfter p.startBeatHz pre
      + (s.beat - anchorAfter p.startBeatHz pre)
        * ((t - (pre.map Stage.duration).sum) / s.duration) := by
  unfold getBeatAt
  rw [if_neg (not_le.mpr ht), hsplit, getBeatAtLoop_skip t pre _ 0 _ hnn (by simpa using h1)]
  rw [getBeatAtLoop_cons_lt _ _ _ _ _ (by simpa using h2) (ne_of_gt hd)]
  simp

/-- At a positive instant that is the end of a prefix of stages, when the next
stage (if any) has positive duration, the walk returns the carried anchor. -/
theorem getBeatAt_split_boundary (p : Opts K) (pre post : List (Stage K))
    (hsplit : p.stages = pre ++ post) (hnn : ∀ x ∈ pre, 0 ≤ x.duration)
    (hpos : 0 < (pre.map Stage.duration).sum)
    (hnext : ∀ s ∈ post.head?, 0 < s.duration) :
    getBeatAt (pre.map Stage.duration).sum p = anchorAfter p.startBeatHz pre := by
  unfold getBeatAt
  rw [if_neg (not_le.mpr hpos), hsplit, getBeatAtLoop_skip _ pre _ 0 _ hnn (by simp)]
  cases post with
  | nil => rfl
  | cons s rest =>
    have hs : 0 < s.duration := hnext s (by simp)
    rw [getBeatAtLoop_cons_lt _ _ _ _ _ (by simpa using hs) (ne_of_gt hs)]
    simp

/-- Past the end of all stages the walk returns the last carried anchor. -/
theorem getBeatAt_past_end (p : Opts K) (t : K) (hnn : NonNegDurations p)
    (ht : 0 < t) (hge : getTotalDuration p ≤ t) :
    getBeatAt t p = anchorAfter p.startBeatHz p.stages := by
  unfold getBeatAt
  rw [if_neg (not_le.mpr ht)]
  have := getBeatAtLoop_skip t p.stages [] 0 p.startBeatHz hnn
    (by rw [getTotalDuration_eq_sum] at hge; simpa using hge)
  simpa using this

theorem anchorAfter_getLast (b : K) (l : List (Stage K)) (last : Stage K)
    (h : l.getLast? = some last) : anchorAfter b l = last.beat := by
  induction l generalizing b with
  | nil => simp at h
  | cons x xs ih =>
    cases xs with
    | nil => simp at h; simp [anchorAfter, h]
    | cons y ys =>
      rw [List.getLast?_cons_cons] at h
      rw [anchorAfter_cons]
      exact ih x.beat h

theorem nonNeg_take (p : Opts K) (hnn : NonNegDurations p) (n : Nat) :
    ∀ x ∈ p.stages.take n, 0 ≤ x.duration :=
  fun x hx => hnn x (List.mem_of_mem_take hx)

/-- A run of zero-duration stages after stage `i` does not move the cumulative
end time. -/
theorem stageEnd_run (stages : List (Stage K)) (i : Nat) :
    ∀ (j : Nat), i ≤ j → j < stages.length →
      (∀ k x, i < k → k ≤ j → stages[k]? = some x → x.duration = 0) →
      stageEnd stages j = stageEnd stages i := by
  intro j hij
  induction j, hij using Nat.le_induction with
  | base => intro _ _; rfl
  | succ j hij ih =>
    intro hlen hrun
    have hj : j < stages.length := Nat.lt_of_succ_lt hlen
    have hprev := ih hj (fun k x hk hkj hx => hrun k x hk (Nat.le_succ_of_le hkj) hx)
    have hx : stages[j + 1]? = some stages[j + 1] := List.getElem?_eq_getElem hlen
    have hz := hrun (j + 1) _ (Nat.lt_succ_of_le hij) le_rfl hx
    rw [stageEnd_eq stages (j + 1) _ hx, hz, add_zero, ← hprev]
    rfl

/-- At the positive end time of a stage whose successor, if any, has positive
duration, the walk returns that stage's beat. -/
theorem getBeatAt_stageEnd_of_next_pos (p : Opts K) (i : Nat) (s : Stage K)
    (hs : p.stages[i]? = some s) (hnn : NonNegDurations p)
    (hpos : 0 < stageEnd p.stages i)
    (hnext : ∀ x, p.stages[i + 1]? = some x → 0 < x.duration) :
    getBeatAt (stageEnd p.stages i) p = s.beat := by
  have h := getBeatAt_split_boundary p (p.stages.take (i + 1)) (p.stages.drop (i + 1))
    (List.take_append_drop _ _).symm (nonNeg_take p hnn (i + 1)) hpos
    (by
      intro x hx
      apply hnext x
      rw [Option.mem_def, List.head?_drop] at hx
      exact hx)
  rw [anchorAfter_take_succ _ _ _ _ hs] at h
  exact h

/-! ## The claims about `getBeatAt` -/

/-- C9: for every program and every elapsed time `t ≤ 0`, `getBeatAt t`
is the program's `startBeatHz`. -/
theorem getBeatAt_of_nonpos (p : Opts K) (t : K) (ht : t ≤ 0) :
    getBeatAt t p = p.startBeatHz := by
  simp [getBeatAt, ht]

/-- C1 (amended): for a program with non-negative stage durations and `t > 0`
inside stage `i` of positive duration (`stageStart ≤ t < stageEnd`),
`getBeatAt t` is the linear interpolation
`previousAnchor + (stage.beat - previousAnchor) * ((t - stageStart) / stage.duration)`. -/
theorem getBeatAt_inside_stage (p : Opts K) (i : Nat) (s : Stage K) (t : K)
    (hs : p.stages[i]? = some s) (hnn : NonNegDurations p) (ht : 0 < t)
    (hd : 0 < s.duration) (h1 : stageStart p.stages i ≤ t)
    (h2 : t < stageEnd p.stages i) :
    getBeatAt t p = previousAnchor p i
      + (s.beat - previousAnchor p i) * ((t - stageStart p.stages i) / s.duration) := by
  have hi : i < p.stages.length := by
    by_contra hcon
    rw [List.getElem?_eq_none (not_lt.mp hcon)] at hs
    exact absurd hs (by simp)
  rw [stageEnd_eq _ _ _ hs] at h2
  have := getBeatAt_split_interp p (p.stages.take i) (p.stages.drop (i + 1)) s t
    (split_at_stage _ _ _ hs) (nonNeg_take p hnn i) hd ht h1 h2
  rw [anchorAfter_take p i (le_of_lt hi)] at this
  exact this

/-- C3 (amended): for a program with non-negative stage durations and a stage
`i` whose cumulative end time is positive and whose successor, if there is one,
has positive duration, `getBeatAt` at that end time is stage `i`'s beat. -/
theorem getBeatAt_at_stageEnd (p : Opts K) (i : Nat) (s : Stage K)
    (hs : p.stages[i]? = some s) (hnn : NonNegDurations p)
    (hpos : 0 < stageEnd p.stages i)
    (hnext : ∀ x, p.stages[i + 1]? = some x → 0 < x.duration) :
    getBeatAt (stageEnd p.stages i) p = s.beat :=
  getBeatAt_stageEnd_of_next_pos p i s hs hnn hpos hnext

/-- C2 (amended): for a program with non-negative stage durations and a
zero-duration stage `i` sitting at a positive instant `T` (its cumulative start,
which is also its end), `getBeatAt T` is the target beat of the last stage `j`
of the run of consecutive zero-duration stages that begins at `i`; when the
successor of `i` has positive duration or is absent this is stage `i`'s own
target, so the jump is already in force at the instant itself. -/
theorem getBeatAt_at_zero_duration_stage (p : Opts K) (i j : Nat) (s sj : Stage K)
    (hnn : NonNegDurations p) (hs : p.stages[i]? = some s) (hd : s.duration = 0)
    (hij : i ≤ j) (hj : p.stages[j]? = some sj)
    (hrun : ∀ k x, i < k → k ≤ j → p.stages[k]? = some x → x.duration = 0)
    (hnext : ∀ x, p.stages[j + 1]? = some x → 0 < x.duration)
    (hpos : 0 < stageStart p.stages i) :
    stageEnd p.stages i = stageStart p.stages i
      ∧ getBeatAt (stageStart p.stages i) p = sj.beat := by
  have hie : stageEnd p.stages i = stageStart p.stages i := by
    rw [stageEnd_eq _ _ _ hs, hd, add_zero]
  have hjlen : j < p.stages.length := by
    by_contra hcon
    rw [List.getElem?_eq_none (not_lt.mp hcon)] at hj
    exact absurd hj (by simp)
  have hje : stageEnd p.stages j = stageStart p.stages i := by
    rw [stageEnd_run p.stages i j hij hjlen hrun, hie]
  refine ⟨hie, ?_⟩
  rw [← hje]
  exact getBeatAt_stageEnd_of_next_pos p j sj hj hnn (by rw [hje]; exact hpos) hnext

/-- C4 (amended): for a program with non-negative stage durations and positive
total duration, `getBeatAt t` for every `t` beyond the total duration equals
`getBeatAt` at the total duration, and both are the final stage's beat. -/
theorem getBeatAt_holds_final_value (p : Opts K) (t : K) (hnn : NonNegDurations p)
    (hD : 0 < getTotalDuration p) (ht : getTotalDuration p < t) :
    getBeatAt t p = getBeatAt (getTotalDuration p) p
      ∧ ∀ last, p.stages.getLast? = some last → getBeatAt t p = last.beat := by
  have h1 := getBeatAt_past_end p t hnn (lt_trans hD ht) (le_of_lt ht)
  have h2 := getBeatAt_past_end p (getTotalDuration p) hnn hD le_rfl
  refine ⟨by rw [h1, h2], ?_⟩
  intro last hlast
  rw [h1]
  exact anchorAfter_getLast _ _ _ hlast

end InterpolatorProofs

/-! ## Continuity over real elapsed time -/

/-- Started exactly at a stage boundary, the walk over stages of positive
duration returns the carried anchor. -/
theorem getBeatAtLoop_at_start {K : Type} [LinearOrderedField K] (c b : K)
    (stages : List (Stage K)) (hpos : ∀ s ∈ stages, 0 < s.duration) :
    getBeatAtLoop c c b stages = b := by
  cases stages with
  | nil => rfl
  | cons s rest =>
    have hs : 0 < s.duration := hpos s (List.mem_cons_self _ _)
    rw [getBeatAtLoop_cons_lt _ _ _ _ _ (by linarith) (ne_of_gt hs)]
    simp

/-- The walk started at `c` with anchor `b`, extended by the constant `b` to the
left of `c`, is continuous when every duration is positive. -/
theorem getBeatAtLoop_continuous (stages : List (Stage ℝ)) :
    ∀ (c b : ℝ), (∀ s ∈ stages, 0 < s.duration) →
      Continuous (fun t : ℝ => if t ≤ c then b else getBeatAtLoop t c b stages) := by
  induction stages with
  | nil =>
    intro c b _
    simp only [getBeatAtLoop_nil, ite_self]
    exact continuous_const
  | cons s rest ih =>
    intro c b hpos
    have hs : 0 < s.duration := hpos s (List.mem_cons_self _ _)
    have hrest : ∀ x ∈ rest, 0 < x.duration := fun x hx => hpos x (List.mem_cons_of_mem _ hx)
    have hfun : (fun t : ℝ => if t ≤ c then b else getBeatAtLoop t c b (s :: rest))
        = fun t : ℝ => if t ≤ c then b else
            if c + s.duration ≤ t then
              (if t ≤ c + s.duration then s.beat
                else getBeatAtLoop t (c + s.duration) s.beat rest)
            else b + (s.beat - b) * ((t - c) / s.duration) := by
      funext t
      by_cases h1 : t ≤ c
      · simp [h1]
      · rw [if_neg h1, if_neg h1]
        by_cases h2 : c + s.duration ≤ t
        · rw [if_pos h2, getBeatAtLoop_cons_ge _ _ _ _ _ h2]
          by_cases h3 : t ≤ c + s.duration
          · have : t = c + s.duration := le_antisymm h3 h2
            rw [if_pos h3, this, getBeatAtLoop_at_start _ _ _ hrest]
          · rw [if_neg h3]
        · rw [if_neg h2, getBeatAtLoop_cons_lt _ _ _ _ _ (not_le.mp h2) (ne_of_gt hs)]
    rw [hfun]
    have hlin : Continuous (fun t : ℝ => b + (s.beat - b) * ((t - c) / s.duration)) := by
      fun_prop
    have hinner : Continuous (fun t : ℝ =>
        if c + s.duration ≤ t then
          (if t ≤ c + s.duration then s.beat
            else getBeatAtLoop t (c + s.duration) s.beat rest)
        else b + (s.beat - b) * ((t - c) / s.duration)) := by
      apply Continuous.if_le (ih (c + s.duration) s.beat hrest) hlin continuous_const
        continuous_id
      intro t ht
      simp only [id] at ht
      rw [if_pos (le_of_eq ht.symm), ← ht]
      field_simp
    apply Continuous.if_le continuous_const hinner continuous_id continuous_const
    intro t ht
    simp only [id] at ht
    rw [ht, if_neg (by linarith)]
    simp

/-- C10: for a program all of whose stage durations are strictly positive,
`getBeatAt t`, as a function of real elapsed time `t`, is continuous at every
`t` (in particular at `0`, at the stage boundaries and at the total duration). -/
theorem getBeatAt_continuous (p : Opts ℝ) (hpos : ∀ s ∈ p.stages, 0 < s.duration) :
    Continuous (fun t : ℝ => getBeatAt t p) := by
  have h := getBeatAtLoop_continuous p.stages 0 p.startBeatHz hpos
  exact h

theorem getBeatAt_continuous_witness :
    Continuous (fun t : ℝ =>
      getBeatAt t { startBeatHz := 10, stages := [⟨5, 1800⟩, ⟨8, 600⟩] }) :=
  getBeatAt_continuous _ (by
    intro s hs
    simp at hs
    rcases hs with rfl | rfl <;> norm_num)

/-! ## Evaluations at concrete programs -/

theorem rampDown_nonNeg : NonNegDurations rampDown := by
  intro s hs
  simp [rampDown] at hs
  subst hs
  norm_num

theorem jumpAtTen_nonNeg : NonNegDurations jumpAtTen := by
  intro s hs
  simp [jumpAtTen] at hs
  rcases hs with rfl | rfl <;> norm_num

theorem instantJump_nonNeg : NonNegDurations instantJump := by
  intro s hs
  simp [instantJump] at hs
  subst hs
  norm_num

theorem getBeatAt_of_nonpos_witness :
    (-3 : ℚ) ≤ 0 ∧ getBeatAt (-3) rampDown = 10 :=
  ⟨by norm_num, getBeatAt_of_nonpos rampDown (-3) (by norm_num)⟩

theorem getBeatAt_inside_stage_witness : getBeatAt (900 : ℚ) rampDown = 15 / 2 := by
  have h := getBeatAt_inside_stage rampDown 0 ⟨5, 1800⟩ 900 (by simp [rampDown])
    rampDown_nonNeg (by norm_num) (by norm_num) (by norm_num [stageStart])
    (by norm_num [stageEnd, rampDown])
  rw [h]
  norm_num [previousAnchor, stageStart, rampDown]

/-- C1 (as stated) fails: in `backwards` the instant `t = 6` lies inside stage 2
(`5 ≤ 6 < 15`, duration `10 > 0`), whose interpolation formula gives `36/5`,
but the walk stops in stage 0 and `getBeatAt 6` is `7`. -/
theorem getBeatAt_inside_stage_fails_backwards :
    backwards.stages[2]? = some ⟨9, 10⟩
      ∧ stageStart backwards.stages 2 = 5 ∧ stageEnd backwards.stages 2 = 15
      ∧ previousAnchor backwards 2 = 7
      ∧ getBeatAt 6 backwards = 7
      ∧ previousAnchor backwards 2
          + (9 - previousAnchor backwards 2) * ((6 - stageStart backwards.stages 2) / 10)
          = 36 / 5
      ∧ getBeatAt 6 backwards ≠ previousAnchor backwards 2
          + (9 - previousAnchor backwards 2) * ((6 - stageStart backwards.stages 2) / 10) := by
  refine ⟨rfl, ?_, ?_, ?_, ?_, ?_, ?_⟩ <;>
    norm_num [backwards, stageStart, stageEnd, previousAnchor, getBeatAt, getBeatAtLoop]

theorem getBeatAt_at_zero_duration_stage_witness :
    stageStart jumpAtTen.stages 1 = 10 ∧ stageEnd jumpAtTen.stages 1 = 10
      ∧ getBeatAt 10 jumpAtTen = 5 := by
  have hst : stageStart jumpAtTen.stages 1 = 10 := by norm_num [stageStart, jumpAtTen]
  have h := getBeatAt_at_zero_duration_stage jumpAtTen 1 1 ⟨5, 0⟩ ⟨5, 0⟩ jumpAtTen_nonNeg
    (by simp [jumpAtTen]) rfl le_rfl (by simp [jumpAtTen])
    (by intro k x h1 h2; omega) (by intro x hx; simp [jumpAtTen] at hx)
    (by rw [hst]; norm_num)
  rw [hst] at h
  exact ⟨hst, h.1, h.2⟩

/-- C2 (as stated) fails: in `jumpAtTen` stage 1 is a zero-duration stage at the
instant `10`; the anchor in force before the jump is `8`, yet `getBeatAt 10`
already returns the stage's own target `5`. -/
theorem getBeatAt_zero_duration_returns_target :
    NonNegDurations jumpAtTen
      ∧ jumpAtTen.stages[1]? = some ⟨5, 0⟩
      ∧ stageStart jumpAtTen.stages 1 = 10 ∧ stageEnd jumpAtTen.stages 1 = 10
      ∧ previousAnchor jumpAtTen 1 = 8
      ∧ getBeatAt 10 jumpAtTen = 5
      ∧ getBeatAt 10 jumpAtTen ≠ previousAnchor jumpAtTen 1 := by
  refine ⟨jumpAtTen_nonNeg, rfl, ?_, ?_, ?_, ?_, ?_⟩ <;>
    norm_num [jumpAtTen, stageStart, stageEnd, previousAnchor, getBeatAt, getBeatAtLoop]

theorem getBeatAt_at_stageEnd_witness :
    stageEnd rampDown.stages 0 = 1800 ∧ getBeatAt 1800 rampDown = 5 := by
  have hen : stageEnd rampDown.stages 0 = 1800 := by norm_num [stageEnd, rampDown]
  have h := getBeatAt_at_stageEnd rampDown 0 ⟨5, 1800⟩ (by simp [rampDown]) rampDown_nonNeg
    (by rw [hen]; norm_num) (by intro x hx; simp [rampDown] at hx)
  rw [hen] at h
  exact ⟨hen, h⟩

/-- C3 (as stated) fails twice: in `jumpAtTen` stage 0 ends at `10` with declared
beat `8` but `getBeatAt 10` is `5` (a zero-duration stage follows); in
`instantJump` stage 0 ends at `0` with declared beat `5` but `getBeatAt 0` is
the start beat `10`. -/
theorem getBeatAt_at_stageEnd_fails :
    (NonNegDurations jumpAtTen ∧ jumpAtTen.stages[0]? = some ⟨8, 10⟩
        ∧ stageEnd jumpAtTen.stages 0 = 10 ∧ getBeatAt 10 jumpAtTen = 5
        ∧ getBeatAt (stageEnd jumpAtTen.stages 0) jumpAtTen ≠ 8)
      ∧ (NonNegDurations instantJump ∧ instantJump.stages[0]? = some ⟨5, 0⟩
        ∧ stageEnd instantJump.stages 0 = 0 ∧ getBeatAt 0 instantJump = 10
        ∧ getBeatAt (stageEnd instantJump.stages 0) instantJump ≠ 5) := by
  refine ⟨⟨jumpAtTen_nonNeg, rfl, ?_, ?_, ?_⟩, ⟨instantJump_nonNeg, rfl, ?_, ?_, ?_⟩⟩ <;>
    norm_num [jumpAtTen, instantJump, stageEnd, getBeatAt, getBeatAtLoop]

theorem getBeatAt_holds_final_value_witness :
    getTotalDuration rampDown = 1800 ∧ getBeatAt 2000 rampDown = getBeatAt 1800 rampDown
      ∧ getBeatAt 2000 rampDown = 5 := by
  have hD : getTotalDuration rampDown = 1800 := by norm_num [getTotalDuration, rampDown]
  have h := getBeatAt_holds_final_value rampDown 2000 rampDown_nonNeg
    (by rw [hD]; norm_num) (by rw [hD]; norm_num)
  rw [hD] at h
  exact ⟨hD, h.1, h.2 ⟨5, 1800⟩ (by simp [rampDown])⟩

/-- C4 (as stated) fails: `instantJump` has total duration `0`, `getBeatAt 1`
is the final beat `5` while `getBeatAt 0` is the start beat `10`; and in
`shrinking` (total duration `5`, a negative stage duration) `getBeatAt 6` is `7`
while `getBeatAt 5` is `15/2`. -/
theorem getBeatAt_past_total_fails :
    (NonNegDurations instantJump ∧ getTotalDuration instantJump = 0
        ∧ getBeatAt 1 instantJump = 5 ∧ getBeatAt 0 instantJump = 10
        ∧ getBeatAt 1 instantJump ≠ getBeatAt (getTotalDuration instantJump) instantJump)
      ∧ (getTotalDuration shrinking = 5
        ∧ getBeatAt 6 shrinking = 7 ∧ getBeatAt 5 shrinking = 15 / 2
        ∧ getBeatAt 6 shrinking ≠ getBeatAt (getTotalDuration shrinking) shrinking) := by
  refine ⟨⟨instantJump_nonNeg, ?_, ?_, ?_, ?_⟩, ⟨?_, ?_, ?_, ?_⟩⟩ <;>
    norm_num [instantJump, shrinking, getTotalDuration, getBeatAt, getBeatAtLoop]

/-! ## The PCM encoder -/

section EncoderProofs

variable {K : Type} [LinearOrderedField K] [FloorRing K]

theorem setUint32_zeros (w : List Nat) (n pos d : Nat) (hpos : pos = w.length)
    (hn : 4 ≤ n) :
    setUint32 d (w ++ List.replicate n 0, pos)
      = some ((w ++ le32 d) ++ List.replicate (n - 4) 0, pos + 4) := by
  subst hpos
  obtain ⟨m, rfl⟩ := Nat.exists_eq_add_of_le' hn
  have h : w.length + 4 ≤ (w ++ List.replicate (m + 4) 0).length := by simp
  simp only [setUint32, viewSetUint32, if_pos h]
  simp [List.replicate_succ, le32, List.set_append]

theorem setUint16_zeros (w : List Nat) (n pos d : Nat) (hpos : pos = w.length)
    (hn : 2 ≤ n) :
    setUint16 d (w ++ List.replicate n 0, pos)
      = some ((w ++ le16 d) ++ List.replicate (n - 2) 0, pos + 2) := by
  subst hpos
  obtain ⟨m, rfl⟩ := Nat.exists_eq_add_of_le' hn
  have h : w.length + 2 ≤ (w ++ List.replicate (m + 2) 0).length := by simp
  simp only [setUint16, viewSetUint16, if_pos h]
  simp [List.replicate_succ, le16, List.set_append]

/-- The thirteen header writes always succeed: they leave the header followed
by the still-zero payload, and `pos = 44`. -/
theorem writeHeader_eq (c r m : Nat) :
    writeHeader c r (m + 44)
      = some (wavHeader c r (m + 44) ++ List.replicate m 0, 44) := by
  unfold writeHeader
  have h0 : List.replicate (m + 44) 0 = ([] : List Nat) ++ List.replicate (m + 44) 0 := rfl
  rw [h0]
  simp only [Option.some_bind, bind]
  rw [setUint32_zeros _ _ _ _ (by simp [le32, le16]) (by omega), Option.some_bind]
  rw [setUint32_zeros _ _ _ _ (by simp [le32, le16]) (by omega), Option.some_bind]
  rw [setUint32_zeros _ _ _ _ (by simp [le32, le16]) (by omega), Option.some_bind]
  rw [setUint32_zeros _ _ _ _ (by simp [le32, le16]) (by omega), Option.some_bind]
  rw [setUint32_zeros _ _ _ _ (by simp [le32, le16]) (by omega), Option.some_bind]
  rw [setUint16_zeros _ _ _ _ (by simp [le32, le16]) (by omega), Option.some_bind]
  rw [setUint16_zeros _ _ _ _ (by simp [le32, le16]) (by omega), Option.some_bind]
  rw [setUint32_zeros _ _ _ _ (by simp [le32, le16]) (by omega), Option.some_bind]
  rw [setUint32_zeros _ _ _ _ (by simp [le32, le16]) (by omega), Option.some_bind]
  rw [setUint16_zeros _ _ _ _ (by simp [le32, le16]) (by omega), Option.some_bind]
  rw [setUint16_zeros _ _ _ _ (by simp [le32, le16]) (by omega), Option.some_bind]
  rw [setUint32_zeros _ _ _ _ (by simp [le32, le16]) (by omega), Option.some_bind]
  rw [setUint32_zeros _ _ _ _ (by simp [le32, le16]) (by omega)]
  have hm : m + 44 - 4 - 4 - 4 - 4 - 4 - 2 - 2 - 4 - 4 - 2 - 2 - 4 - 4 = m := by omega
  rw [hm]
  rfl

/-- After the header the sample loop starts at position 44 on the header
followed by zeros. -/
theorem bufferToWav_eq (fuel : Nat) (buffer : AudioBuffer K) :
    bufferToWav fuel buffer
      = writeSamples ((List.range buffer.numberOfChannels).map buffer.getChannelData)
          buffer.numberOfChannels (buffer.length * buffer.numberOfChannels * 2 + 44) fuel
          (wavHeader buffer.numberOfChannels buffer.sampleRate
              (buffer.length * buffer.numberOfChannels * 2 + 44)
            ++ List.replicate (buffer.length * buffer.numberOfChannels * 2) 0) 44 0 := by
  unfold bufferToWav
  simp only []
  rw [writeHeader_eq]

theorem wavHeader_length (c r total : Nat) : (wavHeader c r total).length = 44 := by
  simp [wavHeader, le32, le16]

theorem viewSetInt16_eq (view : List Nat) (pos : Nat) (d : Int)
    (h : pos + 2 ≤ view.length) :
    viewSetInt16 view pos d
      = some ((view.set pos ((d % 65536).toNat % 256)).set (pos + 1)
          ((d % 65536).toNat / 256 % 256)) := by
  simp [viewSetInt16, viewSetUint16, h]

/-- One frame of samples is written without error when it fits; the view keeps
its length and every byte before the starting position. -/
theorem writeFrame_spec (channels : List (List K)) (offset : Nat) (idx : List Nat) :
    ∀ (view : List Nat) (pos : Nat), pos + 2 * idx.length ≤ view.length →
      ∃ view1, writeFrame channels offset idx view pos = some (view1, pos + 2 * idx.length)
        ∧ view1.length = view.length ∧ ∀ j, j < pos → view1[j]? = view[j]? := by
  induction idx with
  | nil => intro view pos _; exact ⟨view, rfl, rfl, fun _ _ => rfl⟩
  | cons i rest ih =>
    intro view pos hroom
    simp only [List.length_cons] at hroom
    have h2 : pos + 2 ≤ view.length := by omega
    simp only [writeFrame, viewSetInt16_eq view pos _ h2]
    obtain ⟨view1, h1, hlen, hkeep⟩ := ih
      ((view.set pos ((quantize (channelSample channels i offset) % 65536).toNat % 256)).set
        (pos + 1) ((quantize (channelSample channels i offset) % 65536).toNat / 256 % 256))
      (pos + 2) (by simp only [List.length_set]; omega)
    refine ⟨view1, ?_, ?_, ?_⟩
    · rw [h1]
      simp only [List.length_cons]
      congr 2
      omega
    · rw [hlen]
      simp
    · intro j hj
      rw [hkeep j (by omega), List.getElem?_set_ne (by omega), List.getElem?_set_ne (by omega)]

/-- With `frames` frames left to write and at least that much fuel the sample
loop finishes; the view keeps its length and the bytes before `pos`. -/
theorem writeSamples_spec (channels : List (List K)) (numOfChan length : Nat) :
    ∀ (fuel frames : Nat) (view : List Nat) (pos offset : Nat),
      frames ≤ fuel → view.length = length → length = pos + frames * (2 * numOfChan) →
      ∃ out, writeSamples channels numOfChan length fuel view pos offset = some out
        ∧ out.length = length ∧ ∀ j, j < pos → out[j]? = view[j]? := by
  intro fuel
  induction fuel with
  | zero =>
    intro frames view pos offset hf hlen hrem
    have hz : frames = 0 := Nat.le_zero.mp hf
    subst hz
    simp only [Nat.zero_mul, Nat.add_zero] at hrem
    refine ⟨view, ?_, hlen, fun _ _ => rfl⟩
    simp [writeSamples, hrem]
  | succ fuel ih =>
    intro frames view pos offset hf hlen hrem
    by_cases hlt : pos < length
    · cases frames with
      | zero => simp at hrem; omega
      | succ r =>
        rw [Nat.succ_mul] at hrem
        obtain ⟨view1, h1, hlen1, hkeep1⟩ := writeFrame_spec channels offset
          (List.range numOfChan) view pos (by simp only [List.length_range]; omega)
        simp only [List.length_range] at h1
        obtain ⟨out, h2, hlen2, hkeep2⟩ := ih r view1 (pos + 2 * numOfChan) (offset + 1)
          (Nat.le_of_succ_le_succ hf) (by rw [hlen1, hlen]) (by omega)
        refine ⟨out, ?_, hlen2, ?_⟩
        · simp only [writeSamples, if_pos hlt, h1, h2]
        · intro j hj
          rw [hkeep2 j (by omega), hkeep1 j hj]
    · exact ⟨view, by simp [writeSamples, hlt], hlen, fun _ _ => rfl⟩

/-- C6: for every buffer with `C` channels, `N` frames and sample rate `R`,
`bufferToWav` returns exactly `44 + 2*N*C` bytes whose first 44 bytes are, in
order and little-endian: `RIFF`, total length - 8, `WAVE`, `fmt `, 16, 1 (PCM),
`C`, `R`, the byte rate `R*C*2`, the block align `C*2`, 16 bits per sample,
`data`, and the data byte length `2*N*C`. -/
theorem bufferToWav_layout (buffer : AudioBuffer K) (fuel : Nat)
    (hfuel : buffer.length ≤ fuel) :
    ∃ bytes, bufferToWav fuel buffer = some bytes
      ∧ bytes.length = 44 + 2 * buffer.length * buffer.numberOfChannels
      ∧ bytes.take 44
        = [0x52, 0x49, 0x46, 0x46]
          ++ le32 (44 + 2 * buffer.length * buffer.numberOfChannels - 8)
          ++ [0x57, 0x41, 0x56, 0x45] ++ [0x66, 0x6d, 0x74, 0x20] ++ le32 16
          ++ le16 1 ++ le16 buffer.numberOfChannels ++ le32 buffer.sampleRate
          ++ le32 (buffer.sampleRate * buffer.numberOfChannels * 2)
          ++ le16 (buffer.numberOfChannels * 2) ++ le16 16
          ++ [0x64, 0x61, 0x74, 0x61]
          ++ le32 (2 * buffer.length * buffer.numberOfChannels) := by
  have htotal : buffer.length * buffer.numberOfChannels * 2 + 44
      = 44 + 2 * buffer.length * buffer.numberOfChannels := by
    rw [Nat.mul_comm (buffer.length * buffer.numberOfChannels) 2, ← Nat.mul_assoc, Nat.add_comm]
  obtain ⟨out, hout, hlen, hkeep⟩ := writeSamples_spec
    ((List.range buffer.numberOfChannels).map buffer.getChannelData)
    buffer.numberOfChannels (buffer.length * buffer.numberOfChannels * 2 + 44) fuel
    buffer.length
    (wavHeader buffer.numberOfChannels buffer.sampleRate
        (buffer.length * buffer.numberOfChannels * 2 + 44)
      ++ List.replicate (buffer.length * buffer.numberOfChannels * 2) 0) 44 0 hfuel
    (by simp only [List.length_append, wavHeader_length, List.length_replicate]; omega)
    (by
      rw [Nat.mul_comm 2 buffer.numberOfChannels, ← Nat.mul_assoc]
      omega)
  refine ⟨out, by rw [bufferToWav_eq, hout], by rw [hlen, htotal], ?_⟩
  have htake : out.take 44 = wavHeader buffer.numberOfChannels buffer.sampleRate
      (buffer.length * buffer.numberOfChannels * 2 + 44) := by
    apply List.ext_getElem?
    intro j
    by_cases hj : j < 44
    · rw [List.getElem?_take_of_lt hj, hkeep j hj,
        List.getElem?_append_left (by rw [wavHeader_length]; exact hj)]
    · rw [List.getElem?_eq_none (by simp only [List.length_take]; omega),
        List.getElem?_eq_none (by rw [wavHeader_length]; omega)]
  rw [htake, htotal]
  have hrate : buffer.sampleRate * 2 * buffer.numberOfChannels
      = buffer.sampleRate * buffer.numberOfChannels * 2 := Nat.mul_right_comm _ _ _
  have hdata : 44 + 2 * buffer.length * buffer.numberOfChannels - 44
      = 2 * buffer.length * buffer.numberOfChannels := by omega
  simp only [wavHeader, hrate, hdata]

theorem readUint16LE_take (view : List Nat) (pos n : Nat) (h : pos + 2 ≤ n) :
    readUint16LE (view.take n) pos = readUint16LE view pos := by
  simp only [readUint16LE, List.getElem?_take_of_lt (show pos < n by omega),
    List.getElem?_take_of_lt (show pos + 1 < n by omega)]

theorem readUint32LE_take (view : List Nat) (pos n : Nat) (h : pos + 4 ≤ n) :
    readUint32LE (view.take n) pos = readUint32LE view pos := by
  simp only [readUint32LE, List.getElem?_take_of_lt (show pos < n by omega),
    List.getElem?_take_of_lt (show pos + 1 < n by omega),
    List.getElem?_take_of_lt (show pos + 2 < n by omega),
    List.getElem?_take_of_lt (show pos + 3 < n by omega)]

/-! ### Quantization of one sample -/

theorem clampSample_bounds (x : K) : -1 ≤ clampSample x ∧ clampSample x ≤ 1 := by
  constructor
  · exact le_max_left _ _
  · exact max_le (by norm_num) (min_le_left _ _)

theorem truncate_bounds (y : K) (hlo : -32768 ≤ y) (hhi : y ≤ 32767) :
    -32768 ≤ truncate y ∧ truncate y ≤ 32767 := by
  unfold truncate
  split
  · next h =>
    constructor
    · have : (0 : Int) ≤ ⌊y⌋ := Int.floor_nonneg.mpr h
      omega
    · have : ⌊y⌋ < 32768 := Int.floor_lt.mpr (by push_cast; linarith)
      omega
  · next h =>
    constructor
    · have : (-32769 : Int) < ⌈y⌉ := Int.lt_ceil.mpr (by push_cast; linarith)
      omega
    · have : ⌈y⌉ ≤ 0 := Int.ceil_le.mpr (by push_cast; linarith)
      omega

theorem scaled_bounds (c : K) (hlo : -1 ≤ c) (hhi : c ≤ 1) :
    -32768 ≤ (if 1 / 2 + c < 0 then c * 32768 else c * 32767)
      ∧ (if 1 / 2 + c < 0 then c * 32768 else c * 32767) ≤ 32767 := by
  split
  · constructor <;> linarith
  · constructor <;> linarith

/-- The wrap of `| 0` never fires: the quantized value is the plain truncation
of the scaled clamped sample. -/
theorem quantize_eq_truncate (s : K) :
    quantize (some s)
      = truncate (if 1 / 2 + clampSample s < 0 then clampSample s * 32768
          else clampSample s * 32767) := by
  obtain ⟨hlo, hhi⟩ := clampSample_bounds s
  obtain ⟨h1, h2⟩ := scaled_bounds (clampSample s) hlo hhi
  obtain ⟨h3, h4⟩ := truncate_bounds _ h1 h2
  simp only [quantize, toInt32]
  omega

theorem quantize_bounds (s : K) :
    -32768 ≤ quantize (some s) ∧ quantize (some s) ≤ 32767 := by
  obtain ⟨hlo, hhi⟩ := clampSample_bounds s
  obtain ⟨h1, h2⟩ := scaled_bounds (clampSample s) hlo hhi
  rw [quantize_eq_truncate]
  exact truncate_bounds _ h1 h2

/-- A signed 16-bit value written by `setInt16` is read back unchanged. -/
theorem readInt16LE_setInt16 (view : List Nat) (pos : Nat) (d : Int)
    (hroom : pos + 2 ≤ view.length) (hlo : -32768 ≤ d) (hhi : d ≤ 32767) :
    ∃ view1, viewSetInt16 view pos d = some view1 ∧ readInt16LE view1 pos = some d := by
  refine ⟨_, viewSetInt16_eq view pos d hroom, ?_⟩
  have h0 : ((view.set pos ((d % 65536).toNat % 256)).set (pos + 1)
      ((d % 65536).toNat / 256 % 256))[pos]? = some ((d % 65536).toNat % 256) := by
    rw [List.getElem?_set_ne (by omega), List.getElem?_set_self (by omega)]
  have h1 : ((view.set pos ((d % 65536).toNat % 256)).set (pos + 1)
      ((d % 65536).toNat / 256 % 256))[pos + 1]? = some ((d % 65536).toNat / 256 % 256) := by
    rw [List.getElem?_set_self (by simp only [List.length_set]; omega)]
  simp only [readInt16LE, readUint16LE, h0, h1]
  congr 1
  split <;> omega

/-- C5 (amended): for every sample value `s`, the 16-bit integer that
`bufferToWav` writes for `s` is obtained by clamping `s` to `[-1, 1]` and then,
if the clamped value is below `-1/2`, multiplying it by 32768, otherwise
multiplying it by 32767, and truncating the product toward zero. -/
theorem quantize_written (view : List Nat) (pos : Nat) (s : K)
    (hroom : pos + 2 ≤ view.length) :
    ∃ view1, viewSetInt16 view pos (quantize (some s)) = some view1
      ∧ readInt16LE view1 pos
        = some (truncate (if clampSample s < -(1 / 2) then clampSample s * 32768
            else clampSample s * 32767)) := by
  obtain ⟨hlo, hhi⟩ := quantize_bounds s
  obtain ⟨view1, hw, hr⟩ := readInt16LE_setInt16 view pos (quantize (some s)) hroom hlo hhi
  refine ⟨view1, hw, ?_⟩
  rw [hr, quantize_eq_truncate]
  have hiff : (1 / 2 + clampSample s < 0) ↔ (clampSample s < -(1 / 2)) := by
    constructor <;> intro h <;> linarith
  simp only [hiff]

end EncoderProofs

theorem clampSample_neg_quarter : clampSample (-1 / 4 : ℚ) = -1 / 4 := by
  simp only [clampSample]
  rw [min_eq_right (by norm_num), max_eq_right (by norm_num)]

theorem quantize_written_witness :
    ∃ view1, viewSetInt16 [0, 0] 0 (quantize (some (-3 / 4 : ℚ))) = some view1
      ∧ readInt16LE view1 0
        = some (truncate (if clampSample (-3 / 4 : ℚ) < -(1 / 2)
            then clampSample (-3 / 4 : ℚ) * 32768 else clampSample (-3 / 4 : ℚ) * 32767)) :=
  quantize_written [0, 0] 0 (-3 / 4) (by decide)

/-- C5 (as stated) fails: the sample `-1/4` is negative, so the claim scales it
by 32768 and obtains `-8192`, but the code tests `0.5 + sample < 0`, scales by
32767 and writes `-8191`. -/
theorem quantize_neg_quarter :
    quantize (some (-1 / 4 : ℚ)) = -8191 ∧ quantizeBySign (-1 / 4 : ℚ) = -8192
      ∧ quantize (some (-1 / 4 : ℚ)) ≠ quantizeBySign (-1 / 4 : ℚ) := by
  have h1 : quantize (some (-1 / 4 : ℚ)) = -8191 := by
    rw [quantize_eq_truncate, clampSample_neg_quarter]
    rw [if_neg (by norm_num)]
    simp only [truncate]
    rw [if_neg (by norm_num), Int.ceil_eq_iff]
    constructor <;> norm_num
  have h2 : quantizeBySign (-1 / 4 : ℚ) = -8192 := by
    simp only [quantizeBySign, clampSample_neg_quarter]
    rw [if_pos (by norm_num)]
    simp only [truncate]
    rw [if_neg (by norm_num), Int.ceil_eq_iff]
    constructor <;> norm_num
  refine ⟨h1, h2, ?_⟩
  rw [h1, h2]
  decide

theorem bufferToWav_layout_witness :
    ∃ bytes, bufferToWav 3 (silence 3) = some bytes ∧ bytes.length = 50
      ∧ bytes.take 44
        = [82, 73, 70, 70, 42, 0, 0, 0, 87, 65, 86, 69, 102, 109, 116, 32, 16, 0, 0, 0,
            1, 0, 1, 0, 68, 172, 0, 0, 136, 88, 1, 0, 2, 0, 16, 0, 100, 97, 116, 97,
            6, 0, 0, 0]
      ∧ readUint16LE bytes 20 = some 1 ∧ readUint16LE bytes 22 = some 1
      ∧ readUint32LE bytes 24 = some 44100 ∧ readUint16LE bytes 34 = some 16 := by
  obtain ⟨bytes, h, hlen, htake⟩ := bufferToWav_layout (silence 3) 3 (le_refl 3)
  have htake1 : bytes.take 44
      = [82, 73, 70, 70, 42, 0, 0, 0, 87, 65, 86, 69, 102, 109, 116, 32, 16, 0, 0, 0,
          1, 0, 1, 0, 68, 172, 0, 0, 136, 88, 1, 0, 2, 0, 16, 0, 100, 97, 116, 97,
          6, 0, 0, 0] := by
    rw [htake]
    simp [silence, le32, le16]
  refine ⟨bytes, h, hlen, htake1, ?_, ?_, ?_, ?_⟩
  · rw [← readUint16LE_take bytes 20 44 (by norm_num), htake1]; rfl
  · rw [← readUint16LE_take bytes 22 44 (by norm_num), htake1]; rfl
  · rw [← readUint32LE_take bytes 24 44 (by norm_num), htake1]; rfl
  · rw [← readUint16LE_take bytes 34 44 (by norm_num), htake1]; rfl

/-! ## The pulsed-mode planners -/

section PlannerProofs

variable {K : Type} [LinearOrderedField K]

theorem getBeatAtLoop_const (t f : K) (stages : List (Stage K))
    (h : ∀ s ∈ stages, s.beat = f) : ∀ c, getBeatAtLoop t c f stages = f := by
  induction stages with
  | nil => intro c; rfl
  | cons s rest ih =>
    intro c
    have hs : s.beat = f := h s (List.mem_cons_self _ _)
    have hrest : ∀ x ∈ rest, x.beat = f := fun x hx => h x (List.mem_cons_of_mem _ hx)
    simp only [getBeatAtLoop, hs, sub_self, zero_mul, add_zero, ite_self]
    split
    · rfl
    · exact ih hrest _

theorem getBeatAt_const (p : Opts K) (f : K) (h : ConstantBeat p f) (t : K) :
    getBeatAt t p = f := by
  obtain ⟨h0, hs⟩ := h
  unfold getBeatAt
  split
  · exact h0
  · rw [h0]
    exact getBeatAtLoop_const t f p.stages hs 0

/-- From cursor `k / f` the offline loop over a constant-`f` program writes the
pulses numbered `k, …, k + m - 1` when exactly those fit before `d`. -/
theorem exportIsoLoop_const (p : Opts K) (f d : K) (h : ConstantBeat p f) (hf : 0 < f) :
    ∀ (m k fuel : Nat), m < fuel →
      (∀ j : Nat, k ≤ j → j < k + m → (j : K) / f + 1 / (2 * f) ≤ d) →
      d < ((k + m : Nat) : K) / f + 1 / (2 * f) →
      exportIsoLoop p d fuel ((k : K) / f)
        = some ((List.range' k m).map
            (fun j : Nat => ⟨(j : K) / f, (j : K) / f + 1 / (4 * f), (j : K) / f + 1 / (2 * f)⟩)) := by
  intro m
  induction m with
  | zero =>
    intro k fuel hfuel _ hlast
    obtain ⟨g, rfl⟩ := Nat.exists_eq_succ_of_ne_zero (Nat.pos_iff_ne_zero.mp hfuel)
    simp only [Nat.add_zero] at hlast
    have hhalf : (k : K) / f + 1 / f / 2 = (k : K) / f + 1 / (2 * f) := by
      field_simp
      ring
    simp only [exportIsoLoop, getBeatAt_const p f h, not_le.mpr hf, if_false, gt_iff_lt, hhalf,
      hlast, if_true, ite_self, List.range'_zero, List.map_nil]
  | succ m ih =>
    intro k fuel hfuel hfit hlast
    obtain ⟨g, rfl⟩ := Nat.exists_eq_succ_of_ne_zero (Nat.pos_iff_ne_zero.mp (Nat.zero_lt_of_lt hfuel))
    have hk := hfit k le_rfl (by omega)
    have hpos : 0 < 1 / (2 * f) := by positivity
    have hlt : (k : K) / f < d := by linarith
    have hhalf : (k : K) / f + 1 / f / 2 = (k : K) / f + 1 / (2 * f) := by
      field_simp
      ring
    have hquart : (k : K) / f + 1 / f / 2 / 2 = (k : K) / f + 1 / (4 * f) := by
      field_simp
      ring
    have hnext : (k : K) / f + 1 / f = ((k + 1 : Nat) : K) / f := by
      push_cast
      field_simp
    have hrec := ih (k + 1) g (by omega)
      (fun j hj1 hj2 => hfit j (by omega) (by omega))
      (by rw [show k + 1 + m = k + (m + 1) by omega]; exact hlast)
    simp only [exportIsoLoop, getBeatAt_const p f h, not_le.mpr hf, if_false, gt_iff_lt, hhalf,
      hquart, hlt, if_true, not_lt.mpr hk, hnext, hrec, List.range'_succ, List.map_cons]

/-- C7: for a program whose beat frequency is constantly `f > 0` over a total
duration `D`, the offline planning loop emits exactly `⌊D * f + 1/2⌋` pulses and
the `k`-th one starts at `k / f`, peaks at `k / f + 1 / (4 f)` and ends at
`k / f + 1 / (2 f)`; so consecutive starts are `1 / f` apart and every pulse
lasts `1 / (2 f)`. -/
theorem exportIsoLoop_constant_beat [FloorRing K] (p : Opts K) (f : K)
    (h : ConstantBeat p f) (hf : 0 < f) (fuel : Nat)
    (hfuel : ⌊getTotalDuration p * f + 1 / 2⌋₊ < fuel) :
    exportIsoLoop p (getTotalDuration p) fuel 0
      = some ((List.range ⌊getTotalDuration p * f + 1 / 2⌋₊).map
          (fun k : Nat =>
            ⟨(k : K) / f, (k : K) / f + 1 / (4 * f), (k : K) / f + 1 / (2 * f)⟩)) := by
  have hrange : List.range ⌊getTotalDuration p * f + 1 / 2⌋₊
      = List.range' 0 ⌊getTotalDuration p * f + 1 / 2⌋₊ := List.range_eq_range' _
  have hstart : (0 : K) = ((0 : Nat) : K) / f := by simp
  rw [hrange, hstart]
  apply exportIsoLoop_const p f _ h hf _ 0 fuel hfuel
  · intro j _ hj
    have hj1 : j + 1 ≤ ⌊getTotalDuration p * f + 1 / 2⌋₊ := by omega
    have hle : ((j + 1 : Nat) : K) ≤ getTotalDuration p * f + 1 / 2 :=
      (Nat.le_floor_iff' (Nat.succ_ne_zero j)).mp hj1
    push_cast at hle
    have : (j : K) / f + 1 / (2 * f) = ((j : K) + 1 / 2) / f := by
      field_simp
      ring
    rw [this, div_le_iff₀ hf]
    linarith
  · have hlt := Nat.lt_floor_add_one (getTotalDuration p * f + 1 / 2)
    have : ((0 + ⌊getTotalDuration p * f + 1 / 2⌋₊ : Nat) : K) / f + 1 / (2 * f)
        = ((⌊getTotalDuration p * f + 1 / 2⌋₊ : K) + 1 / 2) / f := by
      rw [Nat.zero_add]
      field_simp
      ring
    rw [this, lt_div_iff₀ hf]
    linarith

theorem within_iff (d : K) (q : Pulse K) :
    q.within d = true ↔ q.start < d ∧ q.stop ≤ d := by
  simp [Pulse.within]

theorem within_false_iff (d : K) (q : Pulse K) :
    q.within d = false ↔ ¬ (q.start < d ∧ q.stop ≤ d) := by
  rw [← within_iff, Bool.not_eq_true]

theorem pulseStream_length (p : Opts K) (n : Nat) : ∀ c, (pulseStream p n c).length = n := by
  induction n with
  | zero => intro c; rfl
  | succ n ih => intro c; simp [pulseStream, ih]

theorem pulseStream_add (p : Opts K) (m n : Nat) :
    ∀ c, pulseStream p (m + n) c = pulseStream p m c ++ pulseStream p n (cursorAfter p m c) := by
  induction m with
  | zero => intro c; simp [pulseStream, cursorAfter]
  | succ m ih =>
    intro c
    rw [Nat.succ_add]
    simp only [pulseStream, cursorAfter, List.cons_append, ih]

theorem cursorAfter_add (p : Opts K) (m n : Nat) :
    ∀ c, cursorAfter p (m + n) c = cursorAfter p n (cursorAfter p m c) := by
  induction m with
  | zero => intro c; simp [cursorAfter]
  | succ m ih =>
    intro c
    rw [Nat.succ_add]
    simp only [cursorAfter, ih]

/-- With a positive beat everywhere, whatever the offline loop returns is an
initial segment of the pulse stream, made of pulses within the rendered range,
and the next pulse of the stream is not within the range. -/
theorem exportIsoLoop_stream (p : Opts K) (d : K) (hpos : ∀ t, 0 < getBeatAt t p) :
    ∀ (fuel : Nat) (c : K) (out : List (Pulse K)),
      exportIsoLoop p d fuel c = some out →
      out = pulseStream p out.length c ∧ (∀ q ∈ out, q.within d = true)
        ∧ (pulseAt p (cursorAfter p out.length c)).within d = false := by
  intro fuel
  induction fuel with
  | zero =>
    intro c out h
    by_cases hc : c < d
    · simp only [exportIsoLoop, if_pos hc] at h
      cases h
    · simp only [exportIsoLoop, if_neg hc, Option.some.injEq] at h
      subst h
      refine ⟨rfl, by simp, ?_⟩
      rw [within_false_iff]
      exact fun hw => hc hw.1
  | succ fuel ih =>
    intro c out h
    by_cases hc : c < d
    · simp only [exportIsoLoop, if_pos hc, if_neg (not_le.mpr (hpos c)), gt_iff_lt] at h
      by_cases hend : d < c + 1 / getBeatAt c p / 2
      · rw [if_pos hend, Option.some.injEq] at h
        subst h
        refine ⟨rfl, by simp, ?_⟩
        rw [within_false_iff]
        exact fun hw => absurd hend (not_lt.mpr hw.2)
      · rw [if_neg hend] at h
        cases hrec : exportIsoLoop p d fuel (c + 1 / getBeatAt c p) with
        | none => rw [hrec] at h; simp at h
        | some later =>
          rw [hrec] at h
          simp only [Option.some.injEq] at h
          subst h
          obtain ⟨h1, h2, h3⟩ := ih _ _ hrec
          refine ⟨?_, ?_, ?_⟩
          · simp only [List.length_cons, pulseStream, pulseAt]
            rw [← h1]
          · intro q hq
            rcases List.mem_cons.mp hq with rfl | hq
            · rw [within_iff]
              exact ⟨hc, not_lt.mp hend⟩
            · exact h2 q hq
          · simpa [cursorAfter] using h3
    · simp only [exportIsoLoop, if_neg hc, Option.some.injEq] at h
      subst h
      refine ⟨rfl, by simp, ?_⟩
      rw [within_false_iff]
      exact fun hw => hc hw.1

theorem shift_pulse (t0 next b : K) :
    Pulse.shift t0 ⟨next, next + 1 / b / 2 / 2, next + 1 / b / 2⟩
      = ⟨next - t0, next - t0 + 1 / b / 2 / 2, next - t0 + 1 / b / 2⟩ := by
  simp only [Pulse.shift, Pulse.mk.injEq]
  refine ⟨trivial, ?_, ?_⟩ <;> ring

/-- With a positive beat everywhere, the inner loop of `schedulePulses` leaves
through its normal exit, and in elapsed time its pulses are a segment of the
pulse stream that ends at the returned `nextPulseTime`. -/
theorem schedulePulsesLoop_stream (eng : IsoEngine K) (now : K)
    (hpos : ∀ t, 0 < getBeatAt t eng.opts) :
    ∀ (fuel : Nat) (next : K) (ps : List (Pulse K)) (exit : Option K),
      schedulePulsesLoop eng now fuel next = some (ps, exit) →
      ps.map (Pulse.shift eng.t0) = pulseStream eng.opts ps.length (next - eng.t0)
        ∧ ∃ nxt, exit = some nxt
          ∧ nxt - eng.t0 = cursorAfter eng.opts ps.length (next - eng.t0) := by
  intro fuel
  induction fuel with
  | zero =>
    intro next ps exit h
    by_cases hc : next < now + 1 / 5
    · simp only [schedulePulsesLoop, if_pos hc] at h
      cases h
    · simp only [schedulePulsesLoop, if_neg hc, Option.some.injEq, Prod.mk.injEq] at h
      obtain ⟨rfl, rfl⟩ := h
      exact ⟨rfl, next, rfl, rfl⟩
  | succ fuel ih =>
    intro next ps exit h
    by_cases hc : next < now + 1 / 5
    · simp only [schedulePulsesLoop, if_pos hc, if_neg (not_le.mpr (hpos _))] at h
      cases hrec : schedulePulsesLoop eng now fuel
          (next + 1 / getBeatAt (next - eng.t0) eng.opts) with
      | none => rw [hrec] at h; simp at h
      | some r =>
        obtain ⟨later, ex⟩ := r
        rw [hrec] at h
        simp only [Option.some.injEq, Prod.mk.injEq] at h
        obtain ⟨rfl, rfl⟩ := h
        obtain ⟨h1, nxt, h2, h3⟩ := ih _ _ _ hrec
        have hcur : next + 1 / getBeatAt (next - eng.t0) eng.opts - eng.t0
            = next - eng.t0 + 1 / getBeatAt (next - eng.t0) eng.opts := by ring
        rw [hcur] at h1 h3
        refine ⟨?_, nxt, h2, ?_⟩
        · simp only [List.map_cons, List.length_cons, pulseStream, pulseAt, shift_pulse, h1]
        · simpa only [List.length_cons, cursorAfter] using h3
    · simp only [schedulePulsesLoop, if_neg hc, Option.some.injEq, Prod.mk.injEq] at h
      obtain ⟨rfl, rfl⟩ := h
      exact ⟨rfl, next, rfl, rfl⟩

theorem IsoEngine.stop_opts (eng : IsoEngine K) : eng.stop.opts = eng.opts := by
  unfold IsoEngine.stop
  split <;> rfl

theorem IsoEngine.stop_t0 (eng : IsoEngine K) : eng.stop.t0 = eng.t0 := by
  unfold IsoEngine.stop
  split <;> rfl

/-- One invocation of `schedulePulses` keeps `opts` and `t0`, and with a
positive beat everywhere its pulses are a segment of the pulse stream ending at
the booked `nextPulseTime`. -/
theorem schedulePulses_stream (fuel : Nat) (eng : IsoEngine K) (now start : K)
    (hpos : ∀ t, 0 < getBeatAt t eng.opts) (tick : Tick K)
    (h : schedulePulses fuel eng now start = some tick) :
    tick.engine.opts = eng.opts ∧ tick.engine.t0 = eng.t0
      ∧ tick.pulses.map (Pulse.shift eng.t0)
          = pulseStream eng.opts tick.pulses.length (start - eng.t0)
      ∧ ∀ nxt, tick.next = some nxt →
          nxt - eng.t0 = cursorAfter eng.opts tick.pulses.length (start - eng.t0) := by
  unfold schedulePulses at h
  by_cases hs : (!eng.started) = true
  · rw [if_pos hs, Option.some.injEq] at h
    subst h
    exact ⟨rfl, rfl, rfl, fun nxt hn => by simp at hn⟩
  · rw [if_neg hs] at h
    simp only [] at h
    by_cases hstop : eng.opts.endAction ≠ EndAction.hold ∧ now - eng.t0 > eng.totalDuration
    · rw [if_pos hstop, Option.some.injEq] at h
      subst h
      exact ⟨eng.stop_opts, eng.stop_t0, rfl, fun nxt hn => by simp at hn⟩
    · rw [if_neg hstop] at h
      cases hloop : schedulePulsesLoop eng now fuel start with
      | none => rw [hloop] at h; simp at h
      | some r =>
        obtain ⟨ps, exit⟩ := r
        obtain ⟨h1, nxt, h2, h3⟩ := schedulePulsesLoop_stream eng now hpos _ _ _ _ hloop
        subst h2
        rw [hloop] at h
        simp only [Option.some.injEq] at h
        subst h
        refine ⟨rfl, rfl, h1, ?_⟩
        intro n hn
        simp only [Option.some.injEq] at hn
        subst hn
        exact h3

/-- With a positive beat everywhere, the pulses of any number of successive
invocations form, in elapsed time, an initial segment of the pulse stream that
starts at the first invocation's cursor. -/
theorem schedulePulsesRun_stream (fuel : Nat) (p : Opts K) (hpos : ∀ t, 0 < getBeatAt t p) :
    ∀ (nows : List K) (eng : IsoEngine K) (start : K) (out : List (Pulse K)),
      eng.opts = p → schedulePulsesRun fuel eng nows start = some out →
      out.map (Pulse.shift eng.t0) = pulseStream p out.length (start - eng.t0) := by
  intro nows
  induction nows with
  | nil =>
    intro eng start out _ h
    simp only [schedulePulsesRun, Option.some.injEq] at h
    subst h
    rfl
  | cons now later ih =>
    intro eng start out hp h
    simp only [schedulePulsesRun] at h
    cases htick : schedulePulses fuel eng now start with
    | none => rw [htick] at h; simp at h
    | some tick =>
      rw [htick] at h
      simp only [] at h
      obtain ⟨ho, ht, hps, hnext⟩ := schedulePulses_stream fuel eng now start
        (by rw [hp]; exact hpos) tick htick
      rw [hp] at hps hnext
      cases hn : tick.next with
      | none =>
        rw [hn] at h
        simp only [Option.some.injEq] at h
        subst h
        exact hps
      | some nxt =>
        rw [hn] at h
        simp only [] at h
        cases hrun : schedulePulsesRun fuel tick.engine later nxt with
        | none => rw [hrun] at h; simp at h
        | some more =>
          rw [hrun] at h
          simp only [Option.some.injEq] at h
          subst h
          have hmore := ih tick.engine nxt more (by rw [ho, hp]) hrun
          rw [ht, hnext nxt hn] at hmore
          rw [List.map_append, List.length_append, pulseStream_add, hps, hmore]

theorem realtimePulses_stream (fuel : Nat) (p : Opts K) (hpos : ∀ t, 0 < getBeatAt t p)
    (now : K) (later : List K) (out : List (Pulse K))
    (h : realtimePulses fuel p now later = some out) :
    out.map (Pulse.shift now) = pulseStream p out.length 0 := by
  have := schedulePulsesRun_stream fuel p hpos (now :: later)
    ((IsoEngine.create p).start now 0) now out
    (by simp [IsoEngine.start, IsoEngine.create]) h
  simpa [IsoEngine.start, IsoEngine.create] using this

theorem pulseStream_take (p : Opts K) (m n : Nat) (hmn : m ≤ n) (c : K) :
    (pulseStream p n c).take m = pulseStream p m c := by
  obtain ⟨k, rfl⟩ := Nat.exists_eq_add_of_le hmn
  rw [pulseStream_add, List.take_left' (pulseStream_length p m c)]

theorem bound_pos (p : Opts K) (M : K) (hpos : ∀ t, 0 < getBeatAt t p)
    (hM : ∀ t, getBeatAt t p ≤ M) : 0 < M :=
  lt_of_lt_of_le (hpos 0) (hM 0)

theorem one_le_bound_div (p : Opts K) (M : K) (hpos : ∀ t, 0 < getBeatAt t p)
    (hM : ∀ t, getBeatAt t p ≤ M) (c : K) : 1 ≤ 1 / getBeatAt c p * M := by
  rw [one_div, inv_mul_eq_div, le_div_iff₀ (hpos c), one_mul]
  exact hM c

/-- With a beat that is positive and bounded by `M`, the offline loop finishes
within any fuel above `(d - c) * M`. -/
theorem exportIsoLoop_some (p : Opts K) (d M : K) (hpos : ∀ t, 0 < getBeatAt t p)
    (hM : ∀ t, getBeatAt t p ≤ M) :
    ∀ (fuel : Nat) (c : K), (d - c) * M < fuel →
      ∃ out, exportIsoLoop p d fuel c = some out := by
  have hMpos := bound_pos p M hpos hM
  intro fuel
  induction fuel with
  | zero =>
    intro c h
    have hc : ¬ c < d := by
      intro hcd
      have : 0 < (d - c) * M := mul_pos (by linarith) hMpos
      simp only [Nat.cast_zero] at h
      linarith
    exact ⟨[], by simp only [exportIsoLoop, if_neg hc]⟩
  | succ fuel ih =>
    intro c h
    by_cases hc : c < d
    · by_cases hend : d < c + 1 / getBeatAt c p / 2
      · exact ⟨[], by
          simp only [exportIsoLoop, if_pos hc, if_neg (not_le.mpr (hpos c)), gt_iff_lt,
            if_pos hend]⟩
      · have hstep := one_le_bound_div p M hpos hM c
        obtain ⟨later, hl⟩ := ih (c + 1 / getBeatAt c p) (by
          push_cast at h
          have : (d - (c + 1 / getBeatAt c p)) * M
              = (d - c) * M - 1 / getBeatAt c p * M := by ring
          rw [this]
          linarith)
        exact ⟨_ :: later, by
          simp only [exportIsoLoop, if_pos hc, if_neg (not_le.mpr (hpos c)), gt_iff_lt,
            if_neg hend, hl]
          rfl⟩
    · exact ⟨[], by simp only [exportIsoLoop, if_neg hc]⟩

/-- With a beat that is positive and bounded by `M`, the inner loop of
`schedulePulses` finishes within any fuel above `(now + 1/5 - next) * M`, leaves
through its normal exit and does not move the cursor backwards. -/
theorem schedulePulsesLoop_some (eng : IsoEngine K) (now M : K)
    (hpos : ∀ t, 0 < getBeatAt t eng.opts) (hM : ∀ t, getBeatAt t eng.opts ≤ M) :
    ∀ (fuel : Nat) (next : K), (now + 1 / 5 - next) * M < fuel →
      ∃ ps nxt, schedulePulsesLoop eng now fuel next = some (ps, some nxt) ∧ next ≤ nxt := by
  have hMpos := bound_pos eng.opts M hpos hM
  intro fuel
  induction fuel with
  | zero =>
    intro next h
    have hc : ¬ next < now + 1 / 5 := by
      intro hcd
      have : 0 < (now + 1 / 5 - next) * M := mul_pos (by linarith) hMpos
      simp only [Nat.cast_zero] at h
      linarith
    exact ⟨[], next, by simp only [schedulePulsesLoop, if_neg hc], le_rfl⟩
  | succ fuel ih =>
    intro next h
    by_cases hc : next < now + 1 / 5
    · have hstep := one_le_bound_div eng.opts M hpos hM (next - eng.t0)
      have hb := hpos (next - eng.t0)
      obtain ⟨later, nxt, hl, hle⟩ := ih (next + 1 / getBeatAt (next - eng.t0) eng.opts) (by
        push_cast at h
        have : (now + 1 / 5 - (next + 1 / getBeatAt (next - eng.t0) eng.opts)) * M
            = (now + 1 / 5 - next) * M - 1 / getBeatAt (next - eng.t0) eng.opts * M := by ring
        rw [this]
        linarith)
      refine ⟨_ :: later, nxt, by
        simp only [schedulePulsesLoop, if_pos hc, if_neg (not_le.mpr hb), hl]
        rfl, ?_⟩
      have : 0 < 1 / getBeatAt (next - eng.t0) eng.opts := by positivity
      linarith
    · exact ⟨[], next, by simp only [schedulePulsesLoop, if_neg hc], le_rfl⟩

theorem schedulePulses_some (fuel : Nat) (eng : IsoEngine K) (now start M : K)
    (hpos : ∀ t, 0 < getBeatAt t eng.opts) (hM : ∀ t, getBeatAt t eng.opts ≤ M)
    (hfuel : (now + 1 / 5 - start) * M < fuel) :
    ∃ tick, schedulePulses fuel eng now start = some tick
      ∧ tick.engine.opts = eng.opts ∧ ∀ nxt, tick.next = some nxt → start ≤ nxt := by
  unfold schedulePulses
  by_cases hs : (!eng.started) = true
  · exact ⟨_, by rw [if_pos hs], rfl, fun nxt hn => by simp at hn⟩
  · rw [if_neg hs]
    simp only []
    by_cases hstop : eng.opts.endAction ≠ EndAction.hold ∧ now - eng.t0 > eng.totalDuration
    · exact ⟨_, by rw [if_pos hstop], eng.stop_opts, fun nxt hn => by simp at hn⟩
    · rw [if_neg hstop]
      obtain ⟨ps, nxt, hl, hle⟩ := schedulePulsesLoop_some eng now M hpos hM fuel start hfuel
      refine ⟨⟨eng, ps, some nxt⟩, by rw [hl], rfl, ?_⟩
      intro n hn
      simp only [Option.some.injEq] at hn
      subst hn
      exact hle

theorem schedulePulsesRun_some (fuel : Nat) (p : Opts K) (M : K)
    (hpos : ∀ t, 0 < getBeatAt t p) (hM : ∀ t, getBeatAt t p ≤ M) :
    ∀ (nows : List K) (eng : IsoEngine K) (start : K), eng.opts = p →
      (∀ c ∈ nows, (c + 1 / 5 - start) * M < fuel) →
      ∃ out, schedulePulsesRun fuel eng nows start = some out := by
  have hMpos := bound_pos p M hpos hM
  intro nows
  induction nows with
  | nil => intro eng start _ _; exact ⟨[], rfl⟩
  | cons now later ih =>
    intro eng start hp hfuel
    obtain ⟨tick, ht, ho, hmono⟩ := schedulePulses_some fuel eng now start M
      (by rw [hp]; exact hpos) (by rw [hp]; exact hM) (hfuel now (List.mem_cons_self _ _))
    cases hn : tick.next with
    | none => exact ⟨tick.pulses, by simp only [schedulePulsesRun, ht, hn]⟩
    | some nxt =>
      have hle := hmono nxt hn
      obtain ⟨more, hmore⟩ := ih tick.engine nxt (by rw [ho, hp]) (by
        intro c hc
        have h1 := hfuel c (List.mem_cons_of_mem _ hc)
        have h2 : (c + 1 / 5 - nxt) * M ≤ (c + 1 / 5 - start) * M :=
          mul_le_mul_of_nonneg_right (by linarith) (le_of_lt hMpos)
        linarith)
      exact ⟨tick.pulses ++ more, by simp only [schedulePulsesRun, ht, hn, hmore]⟩

/-- C8 (amended): for every program whose beat frequency is positive at every
instant (and bounded by `M`), both paths produce their pulse lists, which are
initial segments of one and the same pulse stream in elapsed program time: once
the realtime path (successive `schedulePulses` invocations from elapsed 0) has
emitted at least as many pulses as the offline loop, cutting its events at the
first pulse that starts at or after the total duration or ends after it gives
exactly the offline list; before that, its events are the leading offline
events. -/
theorem realtime_offline_pulses (p : Opts K) (M : K) (hpos : ∀ t, 0 < getBeatAt t p)
    (hM : ∀ t, getBeatAt t p ≤ M) (fuelO fuelR : Nat) (now : K) (later : List K)
    (hfuelO : getTotalDuration p * M < fuelO)
    (hfuelR : ∀ c ∈ now :: later, (c + 1 / 5 - now) * M < fuelR) :
    ∃ offline realtime,
      exportIsoLoop p (getTotalDuration p) fuelO 0 = some offline
      ∧ realtimePulses fuelR p now later = some realtime
      ∧ (offline.length ≤ realtime.length →
          (realtime.map (Pulse.shift now)).takeWhile (Pulse.within (getTotalDuration p))
            = offline)
      ∧ (realtime.length ≤ offline.length →
          realtime.map (Pulse.shift now) = offline.take realtime.length) := by
  obtain ⟨offline, hO⟩ := exportIsoLoop_some p (getTotalDuration p) M hpos hM fuelO 0
    (by simpa using hfuelO)
  obtain ⟨realtime, hR⟩ := schedulePulsesRun_some fuelR p M hpos hM (now :: later)
    ((IsoEngine.create p).start now 0) now (by simp [IsoEngine.start, IsoEngine.create]) hfuelR
  refine ⟨offline, realtime, hO, hR, ?_⟩
  obtain ⟨h1, h2, h3⟩ := exportIsoLoop_stream p _ hpos fuelO 0 offline hO
  have h4 := realtimePulses_stream fuelR p hpos now later realtime hR
  constructor
  · intro hle
    obtain ⟨k, hk⟩ := Nat.exists_eq_add_of_le hle
    rw [h4, hk, pulseStream_add, ← h1, List.takeWhile_append_of_pos h2]
    cases k with
    | zero => simp [pulseStream]
    | succ k =>
      simp only [pulseStream]
      rw [List.takeWhile_cons_of_neg (by rw [h3]; simp)]
      simp
  · intro hle
    rw [h4]
    conv_rhs => rw [h1]
    rw [pulseStream_take p _ _ hle]

end PlannerProofs

theorem steady4_constant : ConstantBeat steady4 4 := by
  refine ⟨rfl, ?_⟩
  intro s hs
  simp [steady4] at hs
  subst hs
  rfl

theorem steady4_pulse_count : ⌊getTotalDuration steady4 * 4 + 1 / 2⌋₊ = 40 := by
  have hD : getTotalDuration steady4 = 10 := by norm_num [getTotalDuration, steady4]
  rw [hD, Nat.floor_eq_iff (by norm_num)]
  constructor <;> norm_num

theorem exportIsoLoop_constant_beat_witness :
    getTotalDuration steady4 = 10
      ∧ exportIsoLoop steady4 10 41 0
        = some ((List.range 40).map
            (fun k : Nat => ⟨(k : ℚ) / 4, (k : ℚ) / 4 + 1 / 16, (k : ℚ) / 4 + 1 / 8⟩))
      ∧ ((List.range 40).map
            (fun k : Nat =>
              (⟨(k : ℚ) / 4, (k : ℚ) / 4 + 1 / 16, (k : ℚ) / 4 + 1 / 8⟩ : Pulse ℚ))).length
          = 40 := by
  have hD : getTotalDuration steady4 = 10 := by norm_num [getTotalDuration, steady4]
  have h := exportIsoLoop_constant_beat steady4 4 steady4_constant (by norm_num) 41
    (by rw [steady4_pulse_count]; norm_num)
  rw [steady4_pulse_count, hD] at h
  refine ⟨hD, ?_, by simp⟩
  rw [h]
  norm_num


theorem shortSteady_constant : ConstantBeat shortSteady 4 := by
  refine ⟨rfl, ?_⟩
  intro s hs
  simp [shortSteady] at hs
  subst hs
  rfl

theorem realtime_offline_pulses_witness :
    ∃ offline realtime,
      exportIsoLoop shortSteady (getTotalDuration shortSteady) 3 0 = some offline
      ∧ realtimePulses 3 shortSteady 0 [1 / 10, 1 / 5, 3 / 10, 2 / 5] = some realtime
      ∧ (offline.length ≤ realtime.length →
          (realtime.map (Pulse.shift 0)).takeWhile
            (Pulse.within (getTotalDuration shortSteady)) = offline)
      ∧ (realtime.length ≤ offline.length →
          realtime.map (Pulse.shift 0) = offline.take realtime.length) :=
  realtime_offline_pulses shortSteady 4
    (fun t => by rw [getBeatAt_const shortSteady 4 shortSteady_constant]; norm_num)
    (fun t => by rw [getBeatAt_const shortSteady 4 shortSteady_constant])
    3 3 0 [1 / 10, 1 / 5, 3 / 10, 2 / 5]
    (by norm_num [getTotalDuration, shortSteady])
    (by
      intro c hc
      simp only [List.mem_cons, List.mem_singleton, List.not_mem_nil, or_false] at hc
      rcases hc with rfl | rfl | rfl | rfl | rfl <;> norm_num)

theorem lateJump_beat_zero : getBeatAt 0 lateJump = 0 := by
  norm_num [getBeatAt, lateJump]

theorem lateJump_beat_pos (t : ℚ) (ht : 0 < t) : getBeatAt t lateJump = 4 := by
  simp only [getBeatAt, if_neg (not_le.mpr ht), lateJump, getBeatAtLoop]
  norm_num
  exact le_of_lt ht

theorem shortSteady_offline :
    exportIsoLoop shortSteady (3 / 5) 3 0
      = some [⟨0, 1 / 16, 1 / 8⟩, ⟨1 / 4, 5 / 16, 3 / 8⟩] := by
  simp only [exportIsoLoop, getBeatAt_const shortSteady 4 shortSteady_constant]
  norm_num

theorem shortSteady_realtime :
    realtimePulses 3 shortSteady 0 [1 / 10, 1 / 5, 3 / 10, 2 / 5]
      = some [⟨0, 1 / 16, 1 / 8⟩, ⟨1 / 4, 5 / 16, 3 / 8⟩, ⟨1 / 2, 9 / 16, 5 / 8⟩] := by
  norm_num [realtimePulses, schedulePulsesRun, schedulePulses, schedulePulsesLoop,
    IsoEngine.start, IsoEngine.create, IsoEngine.stop, getBeatAt, getBeatAtLoop,
    getTotalDuration, shortSteady]

theorem lateJump_offline :
    exportIsoLoop lateJump 1 6 0
      = some [⟨1 / 10, 13 / 80, 9 / 40⟩, ⟨7 / 20, 33 / 80, 19 / 40⟩,
          ⟨3 / 5, 53 / 80, 29 / 40⟩, ⟨17 / 20, 73 / 80, 39 / 40⟩] := by
  simp only [exportIsoLoop, lateJump_beat_zero]
  norm_num [lateJump_beat_pos]

theorem lateJump_realtime :
    realtimePulses 3 lateJump 0 [1 / 10, 1 / 5, 3 / 10, 2 / 5, 1 / 2, 3 / 5, 7 / 10, 4 / 5]
      = some [⟨1 / 2, 9 / 16, 5 / 8⟩, ⟨3 / 4, 13 / 16, 7 / 8⟩] := by
  norm_num [realtimePulses, schedulePulsesRun, schedulePulses, schedulePulsesLoop,
    IsoEngine.start, IsoEngine.create, IsoEngine.stop, getBeatAt, getBeatAtLoop,
    getTotalDuration, lateJump]

/-- C8 (as stated) fails twice.  In `shortSteady` (4 Hz, total duration 3/5) the
realtime path writes a third pulse at elapsed 1/2, inside the program, which
the offline loop drops because it would end after the total duration.  In
`lateJump` the beat is 0 at elapsed 0: the offline loop re-samples after 0.1 s
and writes four pulses from 1/10 on, the realtime path re-samples after 0.5 s
and, with its look-ahead reaching the total duration 1, has written only the
pulses at 1/2 and 3/4. -/
theorem realtime_offline_differ :
    (getTotalDuration shortSteady = 3 / 5
      ∧ exportIsoLoop shortSteady (3 / 5) 3 0
          = some [⟨0, 1 / 16, 1 / 8⟩, ⟨1 / 4, 5 / 16, 3 / 8⟩]
      ∧ realtimePulses 3 shortSteady 0 [1 / 10, 1 / 5, 3 / 10, 2 / 5]
          = some [⟨0, 1 / 16, 1 / 8⟩, ⟨1 / 4, 5 / 16, 3 / 8⟩, ⟨1 / 2, 9 / 16, 5 / 8⟩])
    ∧ (getTotalDuration lateJump = 1 ∧ getBeatAt 0 lateJump = 0
      ∧ exportIsoLoop lateJump 1 6 0
          = some [⟨1 / 10, 13 / 80, 9 / 40⟩, ⟨7 / 20, 33 / 80, 19 / 40⟩,
              ⟨3 / 5, 53 / 80, 29 / 40⟩, ⟨17 / 20, 73 / 80, 39 / 40⟩]
      ∧ realtimePulses 3 lateJump 0 [1 / 10, 1 / 5, 3 / 10, 2 / 5, 1 / 2, 3 / 5, 7 / 10, 4 / 5]
          = some [⟨1 / 2, 9 / 16, 5 / 8⟩, ⟨3 / 4, 13 / 16, 7 / 8⟩]) :=
  ⟨⟨by norm_num [getTotalDuration, shortSteady], shortSteady_offline, shortSteady_realtime⟩,
    ⟨by norm_num [getTotalDuration, lateJump], lateJump_beat_zero, lateJump_offline,
      lateJump_realtime⟩⟩

/-! ## Quantization boundaries and monotonicity -/

section QuantProofs

variable {K : Type} [LinearOrderedField K] [FloorRing K]

theorem clampSample_of_one_le (s : K) (h : 1 ≤ s) : clampSample s = 1 := by
  simp only [clampSample]
  rw [min_eq_left h, max_eq_right (by norm_num)]

theorem clampSample_of_le_neg_one (s : K) (h : s ≤ -1) : clampSample s = -1 := by
  simp only [clampSample]
  rw [min_eq_right (by linarith), max_eq_left h]

theorem quantize_of_one_le (s : K) (h : 1 ≤ s) : quantize (some s) = 32767 := by
  rw [quantize_eq_truncate, clampSample_of_one_le s h, if_neg (by norm_num)]
  simp only [truncate, one_mul]
  rw [if_pos (by norm_num)]
  have : ((32767 : K)) = ((32767 : Int) : K) := by norm_num
  rw [this, Int.floor_intCast]

theorem quantize_of_le_neg_one (s : K) (h : s ≤ -1) : quantize (some s) = -32768 := by
  rw [quantize_eq_truncate, clampSample_of_le_neg_one s h, if_pos (by norm_num)]
  simp only [truncate]
  rw [if_neg (by norm_num)]
  have : ((-1 : K) * 32768) = ((-32768 : Int) : K) := by norm_num
  rw [this, Int.ceil_intCast]

theorem clampSample_mono (s1 s2 : K) (h : s1 ≤ s2) : clampSample s1 ≤ clampSample s2 := by
  simp only [clampSample]
  exact max_le_max le_rfl (min_le_min le_rfl h)

theorem truncate_mono (x y : K) (h : x ≤ y) : truncate x ≤ truncate y := by
  unfold truncate
  by_cases hx : 0 ≤ x
  · rw [if_pos hx, if_pos (le_trans hx h)]
    exact Int.floor_mono h
  · rw [if_neg hx]
    by_cases hy : 0 ≤ y
    · rw [if_pos hy]
      have h1 : ⌈x⌉ ≤ 0 := Int.ceil_le.mpr (by push_cast; linarith)
      have h2 : (0 : Int) ≤ ⌊y⌋ := Int.floor_nonneg.mpr hy
      omega
    · rw [if_neg hy]
      exact Int.ceil_mono h

/-- Across the threshold `-1/2` the two scale factors do not cross. -/
theorem quantize_mono (s1 s2 : K) (h : s1 ≤ s2) :
    quantize (some s1) ≤ quantize (some s2) := by
  rw [quantize_eq_truncate, quantize_eq_truncate]
  have hc := clampSample_mono s1 s2 h
  by_cases h1 : 1 / 2 + clampSample s1 < 0
  · by_cases h2 : 1 / 2 + clampSample s2 < 0
    · rw [if_pos h1, if_pos h2]
      exact truncate_mono _ _ (by linarith)
    · rw [if_pos h1, if_neg h2]
      have hx : clampSample s1 * 32768 < -16384 := by linarith
      have hy : (-16384 : K) ≤ clampSample s2 * 32767 := by linarith
      have ha : truncate (clampSample s1 * 32768) ≤ -16384 := by
        unfold truncate
        rw [if_neg (by linarith)]
        exact Int.ceil_le.mpr (by push_cast; linarith)
      have hb : -16384 ≤ truncate (clampSample s2 * 32767) := by
        have := truncate_mono (-16384 : K) _ hy
        have h0 : truncate (-16384 : K) = -16384 := by
          unfold truncate
          rw [if_neg (by norm_num)]
          have : (-16384 : K) = ((-16384 : Int) : K) := by norm_num
          rw [this, Int.ceil_intCast]
        rw [h0] at this
        exact this
      omega
  · have h2 : ¬ (1 / 2 + clampSample s2 < 0) := by
      intro hlt
      apply h1
      linarith
    rw [if_neg h1, if_neg h2]
    exact truncate_mono _ _ (by linarith)

theorem quantize_none_bounds : -32768 ≤ quantize (none : Option K) ∧ quantize (none : Option K) ≤ 32767 := by
  simp [quantize]

/-- C11: in `bufferToWav` a sample value of exactly 1 and every sample value
greater than 1 is written as 32767, and a sample value of exactly -1 and every
sample value less than -1 is written as -32768: the word stored by `setInt16`
at any position with room reads back as that value. -/
theorem quantize_boundaries (view : List Nat) (pos : Nat) (hroom : pos + 2 ≤ view.length)
    (s : K) :
    (1 ≤ s → ∃ view1, viewSetInt16 view pos (quantize (some s)) = some view1
        ∧ readInt16LE view1 pos = some 32767)
      ∧ (s ≤ -1 → ∃ view1, viewSetInt16 view pos (quantize (some s)) = some view1
        ∧ readInt16LE view1 pos = some (-32768)) := by
  constructor
  · intro h
    rw [quantize_of_one_le s h]
    exact readInt16LE_setInt16 view pos 32767 hroom (by norm_num) (by norm_num)
  · intro h
    rw [quantize_of_le_neg_one s h]
    exact readInt16LE_setInt16 view pos (-32768) hroom (by norm_num) (by norm_num)

/-- C19: the sample quantization of `bufferToWav` (clamp to `[-1, 1]`, scale
factor chosen by the test `0.5 + s < 0`, truncate toward zero) is monotone
non-decreasing: for `s1 ≤ s2` the integer written for `s1` is at most the one
written for `s2`; every written value lies in `[-32768, 32767]`, so `setInt16`
stores it without wrapping (it reads back unchanged). -/
theorem quantize_monotone_in_range (s1 s2 : K) (h : s1 ≤ s2) :
    quantize (some s1) ≤ quantize (some s2)
      ∧ (-32768 ≤ quantize (some s1) ∧ quantize (some s1) ≤ 32767)
      ∧ (-32768 ≤ quantize (some s2) ∧ quantize (some s2) ≤ 32767)
      ∧ ∀ (view : List Nat) (pos : Nat), pos + 2 ≤ view.length →
          ∃ view1, viewSetInt16 view pos (quantize (some s1)) = some view1
            ∧ readInt16LE view1 pos = some (quantize (some s1)) := by
  refine ⟨quantize_mono s1 s2 h, quantize_bounds s1, quantize_bounds s2, ?_⟩
  intro view pos hroom
  obtain ⟨hlo, hhi⟩ := quantize_bounds s1
  exact readInt16LE_setInt16 view pos _ hroom hlo hhi

end QuantProofs

/-! ## The range of `getBeatAt` -/

section RangeProofs

variable {K : Type} [LinearOrderedField K]

theorem foldl_min_le (l : List (Stage K)) :
    ∀ a : K, l.foldl (fun m s => min m s.beat) a ≤ a
      ∧ ∀ s ∈ l, l.foldl (fun m s => min m s.beat) a ≤ s.beat := by
  induction l with
  | nil => intro a; exact ⟨le_rfl, fun s hs => by simp at hs⟩
  | cons x xs ih =>
    intro a
    obtain ⟨h1, h2⟩ := ih (min a x.beat)
    refine ⟨le_trans h1 (min_le_left _ _), ?_⟩
    intro s hs
    rcases List.mem_cons.mp hs with rfl | hs
    · exact le_trans h1 (min_le_right _ _)
    · exact h2 s hs

theorem foldl_min_mem (l : List (Stage K)) :
    ∀ a : K, l.foldl (fun m s => min m s.beat) a = a
      ∨ ∃ s ∈ l, l.foldl (fun m s => min m s.beat) a = s.beat := by
  induction l with
  | nil => intro a; exact Or.inl rfl
  | cons x xs ih =>
    intro a
    rcases ih (min a x.beat) with h | ⟨s, hs, h⟩
    · rcases min_choice a x.beat with hm | hm
      · left
        rw [List.foldl_cons, h, hm]
      · right
        exact ⟨x, List.mem_cons_self _ _, by rw [List.foldl_cons, h, hm]⟩
    · right
      exact ⟨s, List.mem_cons_of_mem _ hs, by rw [List.foldl_cons, h]⟩

theorem foldl_max_mem (l : List (Stage K)) :
    ∀ a : K, l.foldl (fun m s => max m s.beat) a = a
      ∨ ∃ s ∈ l, l.foldl (fun m s => max m s.beat) a = s.beat := by
  induction l with
  | nil => intro a; exact Or.inl rfl
  | cons x xs ih =>
    intro a
    rcases ih (max a x.beat) with h | ⟨s, hs, h⟩
    · rcases max_choice a x.beat with hm | hm
      · left
        rw [List.foldl_cons, h, hm]
      · right
        exact ⟨x, List.mem_cons_self _ _, by rw [List.foldl_cons, h, hm]⟩
    · right
      exact ⟨s, List.mem_cons_of_mem _ hs, by rw [List.foldl_cons, h]⟩

theorem le_foldl_max (l : List (Stage K)) :
    ∀ a : K, a ≤ l.foldl (fun m s => max m s.beat) a
      ∧ ∀ s ∈ l, s.beat ≤ l.foldl (fun m s => max m s.beat) a := by
  induction l with
  | nil => intro a; exact ⟨le_rfl, fun s hs => by simp at hs⟩
  | cons x xs ih =>
    intro a
    obtain ⟨h1, h2⟩ := ih (max a x.beat)
    refine ⟨le_trans (le_max_left _ _) h1, ?_⟩
    intro s hs
    rcases List.mem_cons.mp hs with rfl | hs
    · exact le_trans (le_max_right _ _) h1
    · exact h2 s hs

/-- The walk started at a cumulative time not after `sec` never selects a stage
of non-positive duration, so its result stays between any bounds that enclose
the carried anchor and all stage beats. -/
theorem getBeatAtLoop_between (sec lo hi : K) (stages : List (Stage K))
    (hst : ∀ s ∈ stages, lo ≤ s.beat ∧ s.beat ≤ hi) :
    ∀ (c b : K), c ≤ sec → lo ≤ b → b ≤ hi →
      lo ≤ getBeatAtLoop sec c b stages ∧ getBeatAtLoop sec c b stages ≤ hi := by
  induction stages with
  | nil => intro c b _ h1 h2; exact ⟨h1, h2⟩
  | cons s rest ih =>
    intro c b hc h1 h2
    obtain ⟨hs1, hs2⟩ := hst s (List.mem_cons_self _ _)
    have hrest : ∀ x ∈ rest, lo ≤ x.beat ∧ x.beat ≤ hi :=
      fun x hx => hst x (List.mem_cons_of_mem _ hx)
    by_cases hlt : sec < c + s.duration
    · have hd : 0 < s.duration := by linarith
      rw [getBeatAtLoop_cons_lt _ _ _ _ _ hlt (ne_of_gt hd)]
      have hk0 : 0 ≤ (sec - c) / s.duration := div_nonneg (by linarith) (le_of_lt hd)
      have hk1 : (sec - c) / s.duration ≤ 1 := by
        rw [div_le_one hd]
        linarith
      constructor
      · nlinarith [mul_nonneg hk0 (sub_nonneg.mpr hs1),
          mul_nonneg (sub_nonneg.mpr hk1) (sub_nonneg.mpr h1)]
      · nlinarith [mul_nonneg hk0 (sub_nonneg.mpr hs2),
          mul_nonneg (sub_nonneg.mpr hk1) (sub_nonneg.mpr h2)]
    · rw [getBeatAtLoop_cons_ge _ _ _ _ _ (not_lt.mp hlt)]
      exact ih hrest _ _ (not_lt.mp hlt) hs1 hs2

theorem getBeatAt_between (p : Opts K) (lo hi : K) (h0 : lo ≤ p.startBeatHz ∧ p.startBeatHz ≤ hi)
    (hst : ∀ s ∈ p.stages, lo ≤ s.beat ∧ s.beat ≤ hi) (t : K) :
    lo ≤ getBeatAt t p ∧ getBeatAt t p ≤ hi := by
  unfold getBeatAt
  split
  · exact h0
  · next h =>
    exact getBeatAtLoop_between t lo hi p.stages hst 0 p.startBeatHz
      (le_of_lt (not_le.mp h)) h0.1 h0.2

theorem minAnchor_le_getBeatAt (p : Opts K) (t : K) : minAnchor p ≤ getBeatAt t p := by
  obtain ⟨h1, h2⟩ := foldl_min_le p.stages p.startBeatHz
  obtain ⟨g1, g2⟩ := le_foldl_max p.stages p.startBeatHz
  exact (getBeatAt_between p (minAnchor p) (maxAnchor p) ⟨h1, g1⟩
    (fun s hs => ⟨h2 s hs, g2 s hs⟩) t).1

theorem getBeatAt_le_maxAnchor (p : Opts K) (t : K) : getBeatAt t p ≤ maxAnchor p := by
  obtain ⟨h1, h2⟩ := foldl_min_le p.stages p.startBeatHz
  obtain ⟨g1, g2⟩ := le_foldl_max p.stages p.startBeatHz
  exact (getBeatAt_between p (minAnchor p) (maxAnchor p) ⟨h1, g1⟩
    (fun s hs => ⟨h2 s hs, g2 s hs⟩) t).2

/-- C18: for every program with non-negative stage durations and every elapsed
time `t`, `getBeatAt t` lies between the minimum and the maximum of the anchor
frequencies (`startBeatHz` and the stage beats); in particular it is never
negative when no anchor is. -/
theorem getBeatAt_within_anchors (p : Opts K) (_hnn : NonNegDurations p) (t : K) :
    (minAnchor p ≤ getBeatAt t p ∧ getBeatAt t p ≤ maxAnchor p)
      ∧ (minAnchor p ≤ p.startBeatHz ∧ (∀ s ∈ p.stages, minAnchor p ≤ s.beat)
        ∧ (minAnchor p = p.startBeatHz ∨ ∃ s ∈ p.stages, minAnchor p = s.beat))
      ∧ (p.startBeatHz ≤ maxAnchor p ∧ (∀ s ∈ p.stages, s.beat ≤ maxAnchor p)
        ∧ (maxAnchor p = p.startBeatHz ∨ ∃ s ∈ p.stages, maxAnchor p = s.beat))
      ∧ (0 ≤ p.startBeatHz → (∀ s ∈ p.stages, 0 ≤ s.beat) → 0 ≤ getBeatAt t p) := by
  obtain ⟨h1, h2⟩ := foldl_min_le p.stages p.startBeatHz
  obtain ⟨g1, g2⟩ := le_foldl_max p.stages p.startBeatHz
  refine ⟨⟨minAnchor_le_getBeatAt p t, getBeatAt_le_maxAnchor p t⟩,
    ⟨h1, h2, foldl_min_mem p.stages p.startBeatHz⟩,
    ⟨g1, g2, foldl_max_mem p.stages p.startBeatHz⟩, ?_⟩
  intro h0 hs
  exact (getBeatAt_between p 0 (maxAnchor p) ⟨h0, g1⟩
    (fun s hx => ⟨hs s hx, g2 s hx⟩) t).1

end RangeProofs

/-! ## Termination and ordering of the offline loop -/

section OfflineProofs

variable {K : Type} [LinearOrderedField K]

theorem exportIsoLoop_succ_skip (p : Opts K) (d c : K) (fuel : Nat) (hc : c < d)
    (hb : getBeatAt c p ≤ 0) :
    exportIsoLoop p d (fuel + 1) c = exportIsoLoop p d fuel (c + 1 / 10) := by
  simp only [exportIsoLoop, if_pos hc, if_pos hb]

theorem exportIsoLoop_succ_break (p : Opts K) (d c : K) (fuel : Nat) (hc : c < d)
    (hb : 0 < getBeatAt c p) (hend : d < c + 1 / getBeatAt c p / 2) :
    exportIsoLoop p d (fuel + 1) c = some [] := by
  simp only [exportIsoLoop, if_pos hc, if_neg (not_le.mpr hb), gt_iff_lt, if_pos hend]

theorem exportIsoLoop_succ_emit (p : Opts K) (d c : K) (fuel : Nat) (hc : c < d)
    (hb : 0 < getBeatAt c p) (hend : ¬ d < c + 1 / getBeatAt c p / 2) :
    exportIsoLoop p d (fuel + 1) c
      = (exportIsoLoop p d fuel (c + 1 / getBeatAt c p)).map (fun later => pulseAt p c :: later) := by
  simp only [exportIsoLoop, if_pos hc, if_neg (not_le.mpr hb), gt_iff_lt, if_neg hend, pulseAt]
  cases exportIsoLoop p d fuel (c + 1 / getBeatAt c p) <;> rfl

theorem exportIsoLoop_exit (p : Opts K) (d c : K) (fuel : Nat) (hc : ¬ c < d) :
    exportIsoLoop p d fuel c = some [] := by
  cases fuel <;> simp only [exportIsoLoop, if_neg hc]

theorem ten_le_max (M : K) : (10 : K) ≤ max 10 M := le_max_left _ _

/-- One period, scaled by a bound `max 10 M` of the frequency, is at least 1. -/
theorem one_le_period_mul (p : Opts K) (M c : K) (hM : ∀ t, getBeatAt t p ≤ M)
    (hb : 0 < getBeatAt c p) : 1 ≤ 1 / getBeatAt c p * max 10 M := by
  rw [one_div, inv_mul_eq_div, le_div_iff₀ hb, one_mul]
  exact le_trans (hM c) (le_max_right _ _)

/-- The offline loop finishes within any fuel above `(d - c) * max 10 M`, where
`M` bounds the beat frequency. -/
theorem exportIsoLoop_terminates (p : Opts K) (d M : K) (hM : ∀ t, getBeatAt t p ≤ M) :
    ∀ (fuel : Nat) (c : K), (d - c) * max 10 M < fuel →
      ∃ out, exportIsoLoop p d fuel c = some out := by
  have hX : (0 : K) < max 10 M := lt_of_lt_of_le (by norm_num) (ten_le_max M)
  intro fuel
  induction fuel with
  | zero =>
    intro c h
    have hc : ¬ c < d := by
      intro hcd
      have : 0 < (d - c) * max 10 M := mul_pos (by linarith) hX
      simp only [Nat.cast_zero] at h
      linarith
    exact ⟨[], exportIsoLoop_exit p d c 0 hc⟩
  | succ fuel ih =>
    intro c h
    push_cast at h
    by_cases hc : c < d
    · by_cases hb : getBeatAt c p ≤ 0
      · rw [exportIsoLoop_succ_skip p d c fuel hc hb]
        apply ih
        have h10 := ten_le_max M
        have : (d - (c + 1 / 10)) * max 10 M = (d - c) * max 10 M - max 10 M / 10 := by ring
        rw [this]
        linarith
      · have hb' : 0 < getBeatAt c p := not_le.mp hb
        by_cases hend : d < c + 1 / getBeatAt c p / 2
        · exact ⟨[], exportIsoLoop_succ_break p d c fuel hc hb' hend⟩
        · have hstep := one_le_period_mul p M c hM hb'
          obtain ⟨later, hl⟩ := ih (c + 1 / getBeatAt c p) (by
            have : (d - (c + 1 / getBeatAt c p)) * max 10 M
                = (d - c) * max 10 M - 1 / getBeatAt c p * max 10 M := by ring
            rw [this]
            linarith)
          exact ⟨pulseAt p c :: later, by
            rw [exportIsoLoop_succ_emit p d c fuel hc hb' hend, hl]
            rfl⟩
    · exact ⟨[], exportIsoLoop_exit p d c _ hc⟩

/-- Whatever the offline loop returns from cursor `c`: every pulse starts at or
after `c`, rises and falls in order, ends by `d`, and ends no later than any
later pulse starts. -/
theorem exportIsoLoop_sorted (p : Opts K) (d : K) :
    ∀ (fuel : Nat) (c : K) (out : List (Pulse K)), exportIsoLoop p d fuel c = some out →
      (∀ q ∈ out, c ≤ q.start ∧ q.start < q.peak ∧ q.peak < q.stop ∧ q.stop ≤ d)
        ∧ out.Pairwise (fun a b => a.stop ≤ b.start) := by
  intro fuel
  induction fuel with
  | zero =>
    intro c out h
    by_cases hc : c < d
    · simp only [exportIsoLoop, if_pos hc] at h
      cases h
    · rw [exportIsoLoop_exit p d c 0 hc, Option.some.injEq] at h
      subst h
      exact ⟨fun q hq => by simp at hq, List.Pairwise.nil⟩
  | succ fuel ih =>
    intro c out h
    by_cases hc : c < d
    · by_cases hb : getBeatAt c p ≤ 0
      · rw [exportIsoLoop_succ_skip p d c fuel hc hb] at h
        obtain ⟨h1, h2⟩ := ih _ _ h
        refine ⟨fun q hq => ?_, h2⟩
        obtain ⟨a, b, e, f⟩ := h1 q hq
        exact ⟨by linarith, b, e, f⟩
      · have hb' : 0 < getBeatAt c p := not_le.mp hb
        have hper : 0 < 1 / getBeatAt c p := by positivity
        by_cases hend : d < c + 1 / getBeatAt c p / 2
        · rw [exportIsoLoop_succ_break p d c fuel hc hb' hend, Option.some.injEq] at h
          subst h
          exact ⟨fun q hq => by simp at hq, List.Pairwise.nil⟩
        · rw [exportIsoLoop_succ_emit p d c fuel hc hb' hend] at h
          cases hrec : exportIsoLoop p d fuel (c + 1 / getBeatAt c p) with
          | none => rw [hrec] at h; simp at h
          | some later =>
            rw [hrec] at h
            simp only [Option.map_some', Option.some.injEq] at h
            subst h
            obtain ⟨h1, h2⟩ := ih _ _ hrec
            constructor
            · intro q hq
              rcases List.mem_cons.mp hq with rfl | hq
              · simp only [pulseAt]
                exact ⟨le_rfl, by linarith, by linarith, not_lt.mp hend⟩
              · obtain ⟨a, b, e, f⟩ := h1 q hq
                exact ⟨by linarith, b, e, f⟩
            · rw [List.pairwise_cons]
              refine ⟨?_, h2⟩
              intro q hq
              obtain ⟨a, _, _, _⟩ := h1 q hq
              simp only [pulseAt]
              linarith
    · rw [exportIsoLoop_exit p d c _ hc, Option.some.injEq] at h
      subst h
      exact ⟨fun q hq => by simp at hq, List.Pairwise.nil⟩

end OfflineProofs

section OfflineClaims

variable {K : Type} [LinearOrderedField K]

theorem exportIsoLoop_iteration (p : Opts K) (d c : K) (fuel : Nat) (hc : c < d) :
    exportIsoLoop p d (fuel + 1) c = some []
      ∨ exportIsoLoop p d (fuel + 1) c = exportIsoLoop p d fuel (c + exportIsoStep p c)
      ∨ exportIsoLoop p d (fuel + 1) c
          = (exportIsoLoop p d fuel (c + exportIsoStep p c)).map
              (fun later => pulseAt p c :: later) := by
  by_cases hb : getBeatAt c p ≤ 0
  · right; left
    rw [exportIsoLoop_succ_skip p d c fuel hc hb, exportIsoStep, if_pos hb]
  · have hb' : 0 < getBeatAt c p := not_le.mp hb
    by_cases hend : d < c + 1 / getBeatAt c p / 2
    · left
      exact exportIsoLoop_succ_break p d c fuel hc hb' hend
    · right; right
      rw [exportIsoLoop_succ_emit p d c fuel hc hb' hend, exportIsoStep, if_neg hb]

theorem exportIsoStep_ge (p : Opts K) (c : K) :
    (maxAnchor p ≤ 0 → exportIsoStep p c = 1 / 10)
      ∧ (0 < maxAnchor p → min (1 / 10) (1 / maxAnchor p) ≤ exportIsoStep p c) := by
  have hM := getBeatAt_le_maxAnchor p c
  unfold exportIsoStep
  constructor
  · intro h
    rw [if_pos (le_trans hM h)]
  · intro h
    by_cases hb : getBeatAt c p ≤ 0
    · rw [if_pos hb]
      exact min_le_left _ _
    · rw [if_neg hb]
      have hb' : 0 < getBeatAt c p := not_le.mp hb
      exact le_trans (min_le_right _ _) (one_div_le_one_div_of_le hb' hM)

/-- C17: for every program with non-negative stage durations and total
duration `D > 0` the offline planning loop terminates.  Each iteration that
passes the loop test either breaks, or continues from the cursor advanced by
`exportIsoStep`, which is `0.1` when no anchor is positive and at least
`min(0.1, 1/M)` otherwise, `M` being the largest anchor frequency; hence any
fuel above `D * max(10, M)` iterations is enough for the loop to return. -/
theorem exportIsoLoop_terminates_bounded (p : Opts K) (_hnn : NonNegDurations p)
    (_hD : 0 < getTotalDuration p) :
    (∀ (fuel : Nat) (c : K), c < getTotalDuration p →
        exportIsoLoop p (getTotalDuration p) (fuel + 1) c = some []
          ∨ exportIsoLoop p (getTotalDuration p) (fuel + 1) c
              = exportIsoLoop p (getTotalDuration p) fuel (c + exportIsoStep p c)
          ∨ exportIsoLoop p (getTotalDuration p) (fuel + 1) c
              = (exportIsoLoop p (getTotalDuration p) fuel (c + exportIsoStep p c)).map
                  (fun later => pulseAt p c :: later))
      ∧ (∀ c : K, (maxAnchor p ≤ 0 → exportIsoStep p c = 1 / 10)
          ∧ (0 < maxAnchor p → min (1 / 10) (1 / maxAnchor p) ≤ exportIsoStep p c))
      ∧ ∀ fuel : Nat, getTotalDuration p * max 10 (maxAnchor p) < fuel →
          ∃ out, exportIsoLoop p (getTotalDuration p) fuel 0 = some out := by
  refine ⟨fun fuel c hc => exportIsoLoop_iteration p _ c fuel hc, exportIsoStep_ge p, ?_⟩
  intro fuel hfuel
  exact exportIsoLoop_terminates p _ (maxAnchor p) (getBeatAt_le_maxAnchor p) fuel 0
    (by simpa using hfuel)

/-- C14: for every program with total duration `D > 0`, the offline loop
returns (given fuel above `D * max(10, M)`) a list of pulses that is ordered
and non-overlapping inside the rendered range: every pulse has
`0 ≤ start < peak < end ≤ D`, start times are strictly increasing, and each
pulse ends no later than every later pulse starts. -/
theorem exportIsoLoop_ordered (p : Opts K) (_hD : 0 < getTotalDuration p) (fuel : Nat)
    (hfuel : getTotalDuration p * max 10 (maxAnchor p) < fuel) :
    ∃ out, exportIsoLoop p (getTotalDuration p) fuel 0 = some out
      ∧ (∀ q ∈ out, 0 ≤ q.start ∧ q.start < q.peak ∧ q.peak < q.stop
          ∧ q.stop ≤ getTotalDuration p)
      ∧ out.Pairwise (fun a b => a.start < b.start)
      ∧ out.Pairwise (fun a b => a.stop ≤ b.start) := by
  obtain ⟨out, hout⟩ := exportIsoLoop_terminates p _ (maxAnchor p) (getBeatAt_le_maxAnchor p)
    fuel 0 (by simpa using hfuel)
  obtain ⟨h1, h2⟩ := exportIsoLoop_sorted p _ fuel 0 out hout
  refine ⟨out, hout, h1, ?_, h2⟩
  apply List.Pairwise.imp_of_mem _ h2
  intro a b ha _ hab
  obtain ⟨_, h3, h4, _⟩ := h1 a ha
  linarith

end OfflineClaims

theorem steady4_nonNeg : NonNegDurations steady4 := by
  intro s hs
  simp [steady4] at hs
  subst hs
  norm_num

theorem steady4_total : getTotalDuration steady4 = 10 := by
  norm_num [getTotalDuration, steady4]

theorem steady4_maxAnchor : maxAnchor steady4 = 4 := by
  norm_num [maxAnchor, steady4]

theorem exportIsoLoop_terminates_bounded_witness :
    ∃ out, exportIsoLoop steady4 (getTotalDuration steady4) 101 0 = some out :=
  (exportIsoLoop_terminates_bounded steady4 steady4_nonNeg
    (by rw [steady4_total]; norm_num)).2.2 101
    (by rw [steady4_total, steady4_maxAnchor]; norm_num)

theorem exportIsoLoop_ordered_witness :
    ∃ out, exportIsoLoop steady4 (getTotalDuration steady4) 101 0 = some out
      ∧ (∀ q ∈ out, 0 ≤ q.start ∧ q.start < q.peak ∧ q.peak < q.stop
          ∧ q.stop ≤ getTotalDuration steady4)
      ∧ out.Pairwise (fun a b => a.start < b.start)
      ∧ out.Pairwise (fun a b => a.stop ≤ b.start) :=
  exportIsoLoop_ordered steady4 (by rw [steady4_total]; norm_num) 101
    (by rw [steady4_total, steady4_maxAnchor]; norm_num)

/-! ## The sample payload of `bufferToWav` -/

section LayoutProofs

variable {K : Type} [LinearOrderedField K] [FloorRing K]

theorem viewSetInt16_zeros (w : List Nat) (n : Nat) (d : Int) (hn : 2 ≤ n) :
    viewSetInt16 (w ++ List.replicate n 0) w.length d
      = some ((w ++ int16Bytes d) ++ List.replicate (n - 2) 0) := by
  obtain ⟨m, rfl⟩ := Nat.exists_eq_add_of_le' hn
  have h : w.length + 2 ≤ (w ++ List.replicate (m + 2) 0).length := by simp
  simp only [viewSetInt16, viewSetUint16, if_pos h]
  simp [List.replicate_succ, int16Bytes, le16, List.set_append]

theorem int16Bytes_length (d : Int) : (int16Bytes d).length = 2 := rfl

theorem frameBytes_length (channels : List (List K)) (offset : Nat) (idx : List Nat) :
    (frameBytes channels offset idx).length = 2 * idx.length := by
  induction idx with
  | nil => rfl
  | cons i rest ih =>
    simp only [frameBytes, List.flatMap_cons, List.length_append, int16Bytes_length,
      List.length_cons] at ih ⊢
    rw [ih]
    omega

theorem frameBytes_cons (channels : List (List K)) (offset i : Nat) (rest : List Nat) :
    frameBytes channels offset (i :: rest)
      = int16Bytes (quantize (channelSample channels i offset))
        ++ frameBytes channels offset rest := by
  simp [frameBytes]

/-- On a view that is still zero from `pos` on, one frame appends its bytes. -/
theorem writeFrame_zeros (channels : List (List K)) (offset : Nat) (idx : List Nat) :
    ∀ (w : List Nat) (n pos : Nat), pos = w.length → 2 * idx.length ≤ n →
      writeFrame channels offset idx (w ++ List.replicate n 0) pos
        = some ((w ++ frameBytes channels offset idx)
            ++ List.replicate (n - 2 * idx.length) 0, pos + 2 * idx.length) := by
  induction idx with
  | nil =>
    intro w n pos _ _
    simp [writeFrame, frameBytes]
  | cons i rest ih =>
    intro w n pos hpos hn
    subst hpos
    simp only [List.length_cons] at hn
    simp only [writeFrame, viewSetInt16_zeros w n _ (by omega)]
    rw [ih _ (n - 2) (w.length + 2) (by simp [int16Bytes_length]) (by omega)]
    simp only [frameBytes_cons, List.append_assoc, List.length_cons]
    have e1 : n - 2 - 2 * rest.length = n - 2 * (rest.length + 1) := by omega
    have e2 : w.length + 2 + 2 * rest.length = w.length + 2 * (rest.length + 1) := by omega
    rw [e1, e2]

/-- With `frames` frames left, a view that is zero from `pos` on and enough
fuel, the sample loop appends the frames `offset, offset + 1, …` in order. -/
theorem writeSamples_zeros (channels : List (List K)) (numOfChan length : Nat) :
    ∀ (fuel frames : Nat) (w : List Nat) (pos offset : Nat),
      frames ≤ fuel → pos = w.length → length = pos + frames * (2 * numOfChan) →
      writeSamples channels numOfChan length fuel
          (w ++ List.replicate (frames * (2 * numOfChan)) 0) pos offset
        = some (w ++ (List.range' offset frames).flatMap
            (fun f => frameBytes channels f (List.range numOfChan))) := by
  intro fuel
  induction fuel with
  | zero =>
    intro frames w pos offset hf hpos hlen
    have hz : frames = 0 := Nat.le_zero.mp hf
    subst hz
    simp only [Nat.zero_mul, Nat.add_zero] at hlen
    simp [writeSamples, hlen]
  | succ fuel ih =>
    intro frames w pos offset hf hpos hlen
    by_cases hlt : pos < length
    · cases frames with
      | zero => simp at hlen; omega
      | succ r =>
        have hsplit : (r + 1) * (2 * numOfChan) = r * (2 * numOfChan) + 2 * numOfChan :=
          Nat.succ_mul _ _
        rw [hsplit] at hlen ⊢
        have hframe := writeFrame_zeros channels offset (List.range numOfChan) w
          (r * (2 * numOfChan) + 2 * numOfChan) pos hpos
          (by simp only [List.length_range]; omega)
        simp only [List.length_range] at hframe
        have hsub : r * (2 * numOfChan) + 2 * numOfChan - 2 * numOfChan
            = r * (2 * numOfChan) := by omega
        rw [hsub] at hframe
        simp only [writeSamples, if_pos hlt, hframe]
        rw [ih r (w ++ frameBytes channels offset (List.range numOfChan))
          (pos + 2 * numOfChan) (offset + 1) (Nat.le_of_succ_le_succ hf)
          (by simp [frameBytes_length, hpos]) (by omega)]
        simp [List.range'_succ, List.append_assoc]
    · have hz : frames * (2 * numOfChan) = 0 := by omega
      have hnil : (List.range' offset frames).flatMap
          (fun f => frameBytes channels f (List.range numOfChan)) = [] := by
        rcases Nat.mul_eq_zero.mp hz with h | h
        · subst h; rfl
        · have hc : numOfChan = 0 := by omega
          subst hc
          induction frames generalizing offset with
          | zero => rfl
          | succ r ihr =>
            simp only [List.range'_succ, List.flatMap_cons]
            rw [ihr (offset + 1) (by omega) (by omega) (by omega)]
            rfl
      rw [hz, hnil]
      simp [writeSamples, hlt]

/-- The bytes returned by `bufferToWav`: the header followed by the payload. -/
theorem bufferToWav_bytes (buffer : AudioBuffer K) (fuel : Nat)
    (hfuel : buffer.length ≤ fuel) :
    bufferToWav fuel buffer
      = some (wavHeader buffer.numberOfChannels buffer.sampleRate
            (buffer.length * buffer.numberOfChannels * 2 + 44)
          ++ samplePayload ((List.range buffer.numberOfChannels).map buffer.getChannelData)
            buffer.numberOfChannels buffer.length) := by
  rw [bufferToWav_eq]
  have hm : buffer.length * buffer.numberOfChannels * 2
      = buffer.length * (2 * buffer.numberOfChannels) := by ring
  rw [hm]
  rw [writeSamples_zeros _ buffer.numberOfChannels _ fuel buffer.length _ 44 0 hfuel
    (by rw [wavHeader_length]) (by omega)]
  simp only [samplePayload, List.range_eq_range']

/-- Indexing into a concatenation of blocks of one common length. -/
theorem getElem?_flatMap_block {α β : Type} (g : α → List β) (len : Nat) :
    ∀ (l : List α) (i j : Nat), (∀ a ∈ l, (g a).length = len) → j < len →
      (l.flatMap g)[i * len + j]? = (l[i]?).bind (fun a => (g a)[j]?) := by
  intro l
  induction l with
  | nil => intro i j _ _; simp
  | cons a rest ih =>
    intro i j hlen hj
    have ha : (g a).length = len := hlen a (List.mem_cons_self _ _)
    have hrest : ∀ x ∈ rest, (g x).length = len :=
      fun x hx => hlen x (List.mem_cons_of_mem _ hx)
    rw [List.flatMap_cons]
    cases i with
    | zero =>
      rw [Nat.zero_mul, Nat.zero_add, List.getElem?_append_left (by rw [ha]; exact hj)]
      simp
    | succ k =>
      have hidx : (k + 1) * len + j = len + (k * len + j) := by
        rw [Nat.succ_mul]; omega
      rw [hidx, List.getElem?_append_right (by rw [ha]; omega), ha, Nat.add_sub_cancel_left,
        ih k j hrest hj]
      simp

/-- Byte `j` of the word of frame `f`, channel `c`, inside the payload. -/
theorem samplePayload_getElem? (channels : List (List K)) (numOfChan frames f c j : Nat)
    (hf : f < frames) (hc : c < numOfChan) (hj : j < 2) :
    (samplePayload channels numOfChan frames)[2 * (f * numOfChan + c) + j]?
      = (int16Bytes (quantize (channelSample channels c f)))[j]? := by
  have hidx : 2 * (f * numOfChan + c) + j = f * (2 * numOfChan) + (c * 2 + j) := by ring
  have hcj : c * 2 + j < 2 * numOfChan := by omega
  rw [hidx, samplePayload, getElem?_flatMap_block _ (2 * numOfChan) _ f (c * 2 + j)
    (by intro a _; rw [frameBytes_length, List.length_range]) hcj,
    List.getElem?_range hf]
  simp only [Option.some_bind, frameBytes]
  rw [getElem?_flatMap_block _ 2 _ c j (by intro a _; rfl) hj, List.getElem?_range hc]
  simp

theorem quantize_option_bounds (x : Option K) : -32768 ≤ quantize x ∧ quantize x ≤ 32767 := by
  cases x with
  | none => simp [quantize]
  | some s => exact quantize_bounds s

/-- A signed 16-bit value is read back from the two bytes `setInt16` stores. -/
theorem readInt16LE_int16Bytes (view : List Nat) (pos : Nat) (d : Int)
    (h0 : view[pos]? = (int16Bytes d)[0]?) (h1 : view[pos + 1]? = (int16Bytes d)[1]?)
    (hlo : -32768 ≤ d) (hhi : d ≤ 32767) : readInt16LE view pos = some d := by
  simp only [int16Bytes, le16, List.getElem?_cons_zero, List.getElem?_cons_succ] at h0 h1
  simp only [readInt16LE, readUint16LE, h0, h1]
  congr 1
  split <;> omega

theorem channelSample_range (g : Nat → List K) (numOfChan c f : Nat) (hc : c < numOfChan) :
    channelSample ((List.range numOfChan).map g) c f = (g c)[f]? := by
  simp [channelSample, List.getElem?_range hc]

theorem samplePayload_congr (ch1 ch2 : List (List K)) (numOfChan frames : Nat)
    (h : ∀ c, c < numOfChan → ∀ f, f < frames → channelSample ch1 c f = channelSample ch2 c f) :
    samplePayload ch1 numOfChan frames = samplePayload ch2 numOfChan frames := by
  simp only [samplePayload, frameBytes, List.flatMap]
  congr 1
  apply List.map_congr_left
  intro f hf
  congr 1
  apply List.map_congr_left
  intro c hc
  rw [h c (List.mem_range.mp hc) f (List.mem_range.mp hf)]

/-- C16: for every buffer with `C` channels and `N` frames, every frame index
`f < N` and every channel index `c < C`, the signed 16-bit little-endian word
that `bufferToWav` writes at byte offset `44 + 2*(f*C + c)` is the quantization
of channel `c`'s sample at frame `f`; and no sample index `≥ N` is read: a
buffer with the same dimensions and the same samples at the indices below `N`
is encoded to the same bytes. -/
theorem bufferToWav_interleaved (buffer : AudioBuffer K) (fuel : Nat)
    (hfuel : buffer.length ≤ fuel) (f c : Nat) (hf : f < buffer.length)
    (hc : c < buffer.numberOfChannels) :
    ∃ bytes, bufferToWav fuel buffer = some bytes
      ∧ readInt16LE bytes (44 + 2 * (f * buffer.numberOfChannels + c))
          = some (quantize ((buffer.getChannelData c)[f]?))
      ∧ ∀ other : AudioBuffer K, other.numberOfChannels = buffer.numberOfChannels →
          other.length = buffer.length → other.sampleRate = buffer.sampleRate →
          (∀ c', c' < buffer.numberOfChannels → ∀ f', f' < buffer.length →
            (other.getChannelData c')[f']? = (buffer.getChannelData c')[f']?) →
          bufferToWav fuel other = some bytes := by
  refine ⟨_, bufferToWav_bytes buffer fuel hfuel, ?_, ?_⟩
  · obtain ⟨hlo, hhi⟩ := quantize_option_bounds ((buffer.getChannelData c)[f]?)
    have hword := fun j hj => samplePayload_getElem?
      ((List.range buffer.numberOfChannels).map buffer.getChannelData)
      buffer.numberOfChannels buffer.length f c j hf hc hj
    simp only [channelSample_range buffer.getChannelData _ c f hc] at hword
    apply readInt16LE_int16Bytes _ _ _ ?_ ?_ hlo hhi
    · rw [List.getElem?_append_right (by rw [wavHeader_length]; omega), wavHeader_length,
        Nat.add_sub_cancel_left]
      exact hword 0 (by norm_num)
    · rw [List.getElem?_append_right (by rw [wavHeader_length]; omega), wavHeader_length]
      have : 44 + 2 * (f * buffer.numberOfChannels + c) + 1 - 44
          = 2 * (f * buffer.numberOfChannels + c) + 1 := by omega
      rw [this]
      exact hword 1 (by norm_num)
  · intro other hC hN hR hsame
    rw [bufferToWav_bytes other fuel (by rw [hN]; exact hfuel), hC, hN, hR]
    congr 2
    apply samplePayload_congr
    intro c' hc' f' hf'
    rw [channelSample_range _ _ c' f' hc', channelSample_range _ _ c' f' hc']
    exact hsame c' hc' f' hf'

end LayoutProofs

/-! ## Session state machine and end of program -/

section SessionProofs

variable {K : Type} [LinearOrderedField K]

theorem IsoEngine.stop_started (eng : IsoEngine K) : eng.stop.started = false := by
  unfold IsoEngine.stop
  cases h : eng.started <;> simp [h]

theorem IsoEngine.stop_pausedTime (eng : IsoEngine K) : eng.stop.pausedTime = eng.pausedTime := by
  unfold IsoEngine.stop
  split <;> rfl

theorem binaural_stop_started (eng : BinauralEngine K) : eng.stop.started = false := by
  unfold BinauralEngine.stop
  cases h : eng.started <;> simp [h]

theorem binaural_stop_t0 (eng : BinauralEngine K) : eng.stop.t0 = eng.t0 := by
  unfold BinauralEngine.stop
  split <;> rfl

theorem binaural_stop_pausedTime (eng : BinauralEngine K) :
    eng.stop.pausedTime = eng.pausedTime := by
  unfold BinauralEngine.stop
  split <;> rfl

/-- Half a second, or one period, scaled by `max 2 M`, is at least 1. -/
theorem one_le_step_mul (p : Opts K) (M c : K) (hM : ∀ t, getBeatAt t p ≤ M)
    (hb : 0 < getBeatAt c p) : 1 ≤ 1 / getBeatAt c p * max 2 M := by
  rw [one_div, inv_mul_eq_div, le_div_iff₀ hb, one_mul]
  exact le_trans (hM c) (le_max_right _ _)

/-- The inner loop of `schedulePulses` finishes within any fuel above
`(now + 1/5 - next) * max 2 M`, where `M` bounds the beat frequency. -/
theorem schedulePulsesLoop_terminates (eng : IsoEngine K) (now M : K)
    (hM : ∀ t, getBeatAt t eng.opts ≤ M) :
    ∀ (fuel : Nat) (next : K), (now + 1 / 5 - next) * max 2 M < fuel →
      ∃ r, schedulePulsesLoop eng now fuel next = some r := by
  have h2 : (2 : K) ≤ max 2 M := le_max_left _ _
  have hX : (0 : K) < max 2 M := lt_of_lt_of_le (by norm_num) h2
  intro fuel
  induction fuel with
  | zero =>
    intro next h
    have hc : ¬ next < now + 1 / 5 := by
      intro hcd
      have : 0 < (now + 1 / 5 - next) * max 2 M := mul_pos (by linarith) hX
      simp only [Nat.cast_zero] at h
      linarith
    simp only [schedulePulsesLoop, if_neg hc]
    exact ⟨_, rfl⟩
  | succ fuel ih =>
    intro next h
    push_cast at h
    by_cases hc : next < now + 1 / 5
    · by_cases hb : getBeatAt (next - eng.t0) eng.opts ≤ 0
      · by_cases hstop : eng.opts.endAction ≠ EndAction.hold
            ∧ next - eng.t0 > eng.totalDuration
        · simp only [schedulePulsesLoop, if_pos hc, if_pos hb, if_pos hstop]
          exact ⟨_, rfl⟩
        · obtain ⟨r, hr⟩ := ih (next + 1 / 2) (by
            have : (now + 1 / 5 - (next + 1 / 2)) * max 2 M
                = (now + 1 / 5 - next) * max 2 M - max 2 M / 2 := by ring
            rw [this]
            linarith)
          simp only [schedulePulsesLoop, if_pos hc, if_pos hb, if_neg hstop, hr]
          exact ⟨_, rfl⟩
      · have hb' : 0 < getBeatAt (next - eng.t0) eng.opts := not_le.mp hb
        have hstep := one_le_step_mul eng.opts M (next - eng.t0) hM hb'
        obtain ⟨r, hr⟩ := ih (next + 1 / getBeatAt (next - eng.t0) eng.opts) (by
          have : (now + 1 / 5 - (next + 1 / getBeatAt (next - eng.t0) eng.opts)) * max 2 M
              = (now + 1 / 5 - next) * max 2 M
                - 1 / getBeatAt (next - eng.t0) eng.opts * max 2 M := by ring
          rw [this]
          linarith)
        obtain ⟨later, ex⟩ := r
        simp only [schedulePulsesLoop, if_pos hc, if_neg hb, hr]
        exact ⟨_, rfl⟩
    · simp only [schedulePulsesLoop, if_neg hc]
      exact ⟨_, rfl⟩

/-- With `endAction = 'hold'` the inner loop never leaves through its stop
branch. -/
theorem schedulePulsesLoop_hold (eng : IsoEngine K) (now : K)
    (hhold : eng.opts.endAction = EndAction.hold) :
    ∀ (fuel : Nat) (next : K) (ps : List (Pulse K)) (exit : Option K),
      schedulePulsesLoop eng now fuel next = some (ps, exit) → ∃ nxt, exit = some nxt := by
  intro fuel
  induction fuel with
  | zero =>
    intro next ps exit h
    by_cases hc : next < now + 1 / 5
    · simp only [schedulePulsesLoop, if_pos hc] at h
      cases h
    · simp only [schedulePulsesLoop, if_neg hc, Option.some.injEq, Prod.mk.injEq] at h
      exact ⟨next, h.2.symm⟩
  | succ fuel ih =>
    intro next ps exit h
    by_cases hc : next < now + 1 / 5
    · by_cases hb : getBeatAt (next - eng.t0) eng.opts ≤ 0
      · have hstop : ¬ (eng.opts.endAction ≠ EndAction.hold
            ∧ next - eng.t0 > eng.totalDuration) := fun hcon => hcon.1 hhold
        simp only [schedulePulsesLoop, if_pos hc, if_pos hb, if_neg hstop] at h
        exact ih _ _ _ h
      · simp only [schedulePulsesLoop, if_pos hc, if_neg hb] at h
        cases hrec : schedulePulsesLoop eng now fuel
            (next + 1 / getBeatAt (next - eng.t0) eng.opts) with
        | none => rw [hrec] at h; simp at h
        | some r =>
          obtain ⟨later, ex⟩ := r
          rw [hrec] at h
          simp only [Option.some.injEq, Prod.mk.injEq] at h
          obtain ⟨_, rfl⟩ := h
          exact ih _ _ _ hrec
    · simp only [schedulePulsesLoop, if_neg hc, Option.some.injEq, Prod.mk.injEq] at h
      exact ⟨next, h.2.symm⟩

/-- An invocation of `schedulePulses` leaves the engine as it was or stopped. -/
theorem schedulePulses_engine (fuel : Nat) (eng : IsoEngine K) (now start : K)
    (tick : Tick K) (h : schedulePulses fuel eng now start = some tick) :
    tick.engine = eng ∨ tick.engine = eng.stop := by
  unfold schedulePulses at h
  by_cases hs : (!eng.started) = true
  · rw [if_pos hs, Option.some.injEq] at h
    subst h
    exact Or.inl rfl
  · rw [if_neg hs] at h
    simp only [] at h
    by_cases hstop : eng.opts.endAction ≠ EndAction.hold ∧ now - eng.t0 > eng.totalDuration
    · rw [if_pos hstop, Option.some.injEq] at h
      subst h
      exact Or.inr rfl
    · rw [if_neg hstop] at h
      cases hloop : schedulePulsesLoop eng now fuel start with
      | none => rw [hloop] at h; simp at h
      | some r =>
        obtain ⟨ps, exit⟩ := r
        rw [hloop] at h
        cases exit with
        | none =>
          simp only [Option.some.injEq] at h
          subst h
          exact Or.inr rfl
        | some nxt =>
          simp only [Option.some.injEq] at h
          subst h
          exact Or.inl rfl

/-- With `endAction = 'hold'` an invocation on a started engine keeps it started
and books the next invocation. -/
theorem schedulePulses_hold (fuel : Nat) (eng : IsoEngine K) (now start : K)
    (hs : eng.started = true) (hhold : eng.opts.endAction = EndAction.hold)
    (tick : Tick K) (h : schedulePulses fuel eng now start = some tick) :
    tick.engine = eng ∧ ∃ nxt, tick.next = some nxt := by
  unfold schedulePulses at h
  have hns : ¬ ((!eng.started) = true) := by simp [hs]
  have hstop : ¬ (eng.opts.endAction ≠ EndAction.hold ∧ now - eng.t0 > eng.totalDuration) :=
    fun hcon => hcon.1 hhold
  rw [if_neg hns] at h
  simp only [] at h
  rw [if_neg hstop] at h
  cases hloop : schedulePulsesLoop eng now fuel start with
  | none => rw [hloop] at h; simp at h
  | some r =>
    obtain ⟨ps, exit⟩ := r
    obtain ⟨nxt, rfl⟩ := schedulePulsesLoop_hold eng now hhold _ _ _ _ hloop
    rw [hloop] at h
    simp only [Option.some.injEq] at h
    subst h
    exact ⟨rfl, nxt, rfl⟩

theorem schedulePulses_terminates (fuel : Nat) (eng : IsoEngine K) (now start : K)
    (hfuel : (now + 1 / 5 - start) * max 2 (maxAnchor eng.opts) < fuel) :
    ∃ tick, schedulePulses fuel eng now start = some tick := by
  obtain ⟨r, hr⟩ := schedulePulsesLoop_terminates eng now (maxAnchor eng.opts)
    (getBeatAt_le_maxAnchor eng.opts) fuel start hfuel
  obtain ⟨ps, exit⟩ := r
  unfold schedulePulses
  by_cases hs : (!eng.started) = true
  · rw [if_pos hs]
    exact ⟨_, rfl⟩
  · rw [if_neg hs]
    simp only []
    by_cases hstop : eng.opts.endAction ≠ EndAction.hold ∧ now - eng.t0 > eng.totalDuration
    · rw [if_pos hstop]
      exact ⟨_, rfl⟩
    · rw [if_neg hstop, hr]
      cases exit with
      | none => exact ⟨_, rfl⟩
      | some nxt => exact ⟨_, rfl⟩

theorem schedulePulses_stop (fuel : Nat) (eng : IsoEngine K) (now start : K)
    (hs : eng.started = true) (hstop : eng.opts.endAction ≠ EndAction.hold)
    (hpast : now - eng.t0 > eng.totalDuration) :
    schedulePulses fuel eng now start = some ⟨eng.stop, [], none⟩ := by
  unfold schedulePulses
  have hns : ¬ ((!eng.started) = true) := by simp [hs]
  rw [if_neg hns]
  simp only []
  rw [if_pos ⟨hstop, hpast⟩]

/-- C13: for a started engine, one scheduler invocation
(`BrainwaveIso.schedulePulses`, `BrainwaveBinaural.scheduleUpdates`) with
`endAction = 'hold'` never stops the engine, whatever the clock reading: the
engine stays started and the next invocation is booked (and `schedulePulses`
does return, given fuel above `(now + 0.2 - startTime) * max(2, M)`); with
`endAction = 'stop'` and elapsed above the total duration the invocation stops
the engine, writes no pulse or frequency event and books no next invocation. -/
theorem scheduler_end_of_program (eng : IsoEngine K) (beng : BinauralEngine K)
    (hs : eng.started = true) (hsb : beng.started = true) (fuel : Nat) (now start : K) :
    (eng.opts.endAction = EndAction.hold →
        (∀ tick, schedulePulses fuel eng now start = some tick →
          tick.engine.started = true ∧ ∃ nxt, tick.next = some nxt)
        ∧ ((now + 1 / 5 - start) * max 2 (maxAnchor eng.opts) < fuel →
          ∃ tick, schedulePulses fuel eng now start = some tick))
      ∧ (eng.opts.endAction = EndAction.stop → now - eng.t0 > eng.totalDuration →
        ∃ tick, schedulePulses fuel eng now start = some tick
          ∧ tick.engine.started = false ∧ tick.pulses = [] ∧ tick.next = none)
      ∧ (beng.opts.endAction = EndAction.hold →
        (scheduleUpdates beng now).engine.started = true
          ∧ (scheduleUpdates beng now).rescheduled = true)
      ∧ (beng.opts.endAction = EndAction.stop → now - beng.t0 > beng.totalDuration →
        (scheduleUpdates beng now).engine.started = false
          ∧ (scheduleUpdates beng now).ramps = []
          ∧ (scheduleUpdates beng now).rescheduled = false) := by
  refine ⟨?_, ?_, ?_, ?_⟩
  · intro hhold
    refine ⟨?_, schedulePulses_terminates fuel eng now start⟩
    intro tick htick
    obtain ⟨he, hn⟩ := schedulePulses_hold fuel eng now start hs hhold tick htick
    exact ⟨by rw [he]; exact hs, hn⟩
  · intro hstop hpast
    exact ⟨_, schedulePulses_stop fuel eng now start hs (by rw [hstop]; decide) hpast,
      eng.stop_started, rfl, rfl⟩
  · intro hhold
    have hns : ¬ ((!beng.started) = true) := by simp [hsb]
    have hstop : ¬ (beng.opts.endAction ≠ EndAction.hold
        ∧ now - beng.t0 > beng.totalDuration) := fun hcon => hcon.1 hhold
    simp only [scheduleUpdates, if_neg hns, if_neg hstop]
    exact ⟨hsb, trivial⟩
  · intro hstop hpast
    have hns : ¬ ((!beng.started) = true) := by simp [hsb]
    have hst : beng.opts.endAction ≠ EndAction.hold := by rw [hstop]; decide
    simp only [scheduleUpdates, if_neg hns, if_pos (And.intro hst hpast)]
    exact ⟨binaural_stop_started beng, trivial, trivial⟩

end SessionProofs

section ResumeProofs

variable {K : Type} [LinearOrderedField K]

theorem IsoEngine.pause_of_started (eng : IsoEngine K) (now : K) (hs : eng.started = true) :
    (eng.pause now).pausedTime = now - eng.t0 ∧ (eng.pause now).started = false
      ∧ (eng.pause now).opts = eng.opts ∧ (eng.pause now).totalDuration = eng.totalDuration := by
  have hns : ¬ ((!eng.started) = true) := by simp [hs]
  simp only [IsoEngine.pause, if_neg hns, IsoEngine.stop, IsoEngine.elapsed, hs, if_true]
  simp

theorem binaural_pause_of_started (eng : BinauralEngine K) (now : K)
    (hs : eng.started = true) :
    (eng.pause now).pausedTime = now - eng.t0 ∧ (eng.pause now).started = false
      ∧ (eng.pause now).opts = eng.opts := by
  have hns : ¬ ((!eng.started) = true) := by simp [hs]
  simp only [BinauralEngine.pause, if_neg hns, BinauralEngine.stop, BinauralEngine.elapsed, hs,
    if_true]
  simp

theorem IsoEngine.start_of_stopped (eng : IsoEngine K) (now offset : K)
    (hs : eng.started = false) :
    (eng.start now offset).started = true ∧ (eng.start now offset).t0 = now - offset
      ∧ (eng.start now offset).opts = eng.opts := by
  simp [IsoEngine.start, hs]

/-- When `start(offset)` on a stopped `BrainwaveIso` returns with the engine
still started, the anchor is `now - offset`. -/
theorem IsoEngine.startFull_t0 (fuel : Nat) (eng : IsoEngine K) (now offset : K)
    (hs : eng.started = false) (tick : Tick K)
    (h : eng.startFull fuel now offset = some tick) (hplay : tick.engine.started = true) :
    tick.engine.t0 = now - offset := by
  simp only [IsoEngine.startFull, hs, Bool.false_eq_true, if_false] at h
  obtain ⟨_, ht0, _⟩ := eng.start_of_stopped now offset hs
  rcases schedulePulses_engine fuel _ now now tick h with he | he
  · rw [he, ht0]
  · rw [he, IsoEngine.stop_started] at hplay
    cases hplay

theorem scheduleUpdates_engine (eng : BinauralEngine K) (now : K) :
    (scheduleUpdates eng now).engine = eng ∨ (scheduleUpdates eng now).engine = eng.stop := by
  unfold scheduleUpdates
  split
  · exact Or.inl rfl
  · simp only []
    split
    · exact Or.inr rfl
    · exact Or.inl rfl

theorem binaural_startFull_t0 (eng : BinauralEngine K) (now offset : K)
    (hs : eng.started = false) (hplay : (eng.startFull now offset).engine.started = true) :
    (eng.startFull now offset).engine.t0 = now - offset := by
  simp only [BinauralEngine.startFull, hs, Bool.false_eq_true, if_false] at hplay ⊢
  rcases scheduleUpdates_engine { eng with t0 := now - offset, started := true } now with he | he
  · rw [he]
  · rw [he, binaural_stop_started] at hplay
    cases hplay

/-- C12 (amended): for either engine, if it is playing, `pause()` is called at
clock time `c1` and `start(pausedTime)` at clock time `c2 ≥ c1`, then
`pausedTime` is the elapsed time at `c1`; and whenever the engine is still
started when `start` returns, `elapsed()` right after the resume is
`pausedTime` and at every clock time `c` in that state it is
`pausedTime + (c - c2)`.  With `endAction = 'hold'` the engine is always still
started when `start` returns (and `start` does return, given fuel above
`0.2 * max(2, M)` for the scheduler loop). -/
theorem pause_resume_elapsed (eng : IsoEngine K) (beng : BinauralEngine K)
    (hs : eng.started = true) (hsb : beng.started = true) (fuel : Nat) (c1 c2 : K)
    (_hc : c1 ≤ c2) :
    ((eng.pause c1).pausedTime = eng.elapsed c1
      ∧ (∀ tick, (eng.pause c1).startFull fuel c2 (eng.pause c1).pausedTime = some tick →
          tick.engine.started = true →
          tick.engine.elapsed c2 = (eng.pause c1).pausedTime
            ∧ ∀ c, tick.engine.elapsed c = (eng.pause c1).pausedTime + (c - c2))
      ∧ (eng.opts.endAction = EndAction.hold →
          (∀ tick, (eng.pause c1).startFull fuel c2 (eng.pause c1).pausedTime = some tick →
            tick.engine.started = true)
          ∧ (1 / 5 * max 2 (maxAnchor eng.opts) < fuel →
            ∃ tick, (eng.pause c1).startFull fuel c2 (eng.pause c1).pausedTime = some tick)))
    ∧ ((beng.pause c1).pausedTime = beng.elapsed c1
      ∧ (((beng.pause c1).startFull c2 (beng.pause c1).pausedTime).engine.started = true →
          ((beng.pause c1).startFull c2 (beng.pause c1).pausedTime).engine.elapsed c2
              = (beng.pause c1).pausedTime
            ∧ ∀ c, ((beng.pause c1).startFull c2 (beng.pause c1).pausedTime).engine.elapsed c
                = (beng.pause c1).pausedTime + (c - c2))
      ∧ (beng.opts.endAction = EndAction.hold →
          ((beng.pause c1).startFull c2 (beng.pause c1).pausedTime).engine.started = true)) := by
  obtain ⟨hp1, hp2, hp3, _⟩ := eng.pause_of_started c1 hs
  obtain ⟨hb1, hb2, hb3⟩ := binaural_pause_of_started beng c1 hsb
  constructor
  · refine ⟨by rw [hp1, IsoEngine.elapsed, if_pos hs], ?_, ?_⟩
    · intro tick htick hplay
      have ht0 := IsoEngine.startFull_t0 fuel _ c2 _ hp2 tick htick hplay
      have hel : ∀ c, tick.engine.elapsed c = (eng.pause c1).pausedTime + (c - c2) := by
        intro c
        rw [IsoEngine.elapsed, if_pos hplay, ht0]
        ring
      exact ⟨by rw [hel c2]; ring, hel⟩
    · intro hhold
      obtain ⟨hst, _, hso⟩ := (eng.pause c1).start_of_stopped c2 (eng.pause c1).pausedTime hp2
      constructor
      · intro tick htick
        simp only [IsoEngine.startFull, hp2, Bool.false_eq_true, if_false] at htick
        obtain ⟨he, _⟩ := schedulePulses_hold fuel _ c2 c2 hst (by rw [hso, hp3]; exact hhold)
          tick htick
        rw [he]
        exact hst
      · intro hfuel
        simp only [IsoEngine.startFull, hp2, Bool.false_eq_true, if_false]
        apply schedulePulses_terminates
        rw [hso, hp3]
        have : c2 + 1 / 5 - c2 = (1 / 5 : K) := by ring
        rw [this]
        exact hfuel
  · refine ⟨by rw [hb1, BinauralEngine.elapsed, if_pos hsb], ?_, ?_⟩
    · intro hplay
      have ht0 := binaural_startFull_t0 _ c2 _ hb2 hplay
      have hel : ∀ c, ((beng.pause c1).startFull c2 (beng.pause c1).pausedTime).engine.elapsed c
          = (beng.pause c1).pausedTime + (c - c2) := by
        intro c
        rw [BinauralEngine.elapsed, if_pos hplay, ht0]
        ring
      exact ⟨by rw [hel c2]; ring, hel⟩
    · intro hhold
      have hstop : ¬ (beng.opts.endAction ≠ EndAction.hold
          ∧ c2 - (c2 - (beng.pause c1).pausedTime) > (beng.pause c1).totalDuration) :=
        fun hcon => hcon.1 hhold
      simp only [BinauralEngine.startFull, hb2, Bool.false_eq_true, if_false, scheduleUpdates,
        Bool.not_true, hb3, if_neg hstop]

end ResumeProofs

/-! ## Further evaluations at concrete inputs -/

theorem isoPlaying_started (opts : Opts ℚ) : (isoPlaying opts).started = true := rfl

theorem binauralPlaying_started (opts : Opts ℚ) : (binauralPlaying opts).started = true := rfl

theorem steady4Stop_total : getTotalDuration steady4Stop = 10 := by
  norm_num [getTotalDuration, steady4Stop]

theorem quantize_boundaries_witness :
    (∃ view1, viewSetInt16 [0, 0] 0 (quantize (some (1 : ℚ))) = some view1
        ∧ readInt16LE view1 0 = some 32767)
      ∧ (∃ view1, viewSetInt16 [0, 0] 0 (quantize (some (-1 : ℚ))) = some view1
        ∧ readInt16LE view1 0 = some (-32768)) :=
  ⟨(quantize_boundaries [0, 0] 0 (by decide) (1 : ℚ)).1 le_rfl,
    (quantize_boundaries [0, 0] 0 (by decide) (-1 : ℚ)).2 le_rfl⟩

theorem quantize_monotone_in_range_witness :
    quantize (some (-3 / 4 : ℚ)) ≤ quantize (some (-1 / 4 : ℚ)) :=
  (quantize_monotone_in_range (-3 / 4 : ℚ) (-1 / 4) (by norm_num)).1

theorem getBeatAt_within_anchors_witness :
    minAnchor rampDown ≤ getBeatAt 900 rampDown ∧ getBeatAt 900 rampDown ≤ maxAnchor rampDown :=
  (getBeatAt_within_anchors rampDown rampDown_nonNeg 900).1

theorem bufferToWav_interleaved_witness :
    ∃ bytes, bufferToWav 3 stereo = some bytes
      ∧ readInt16LE bytes (44 + 2 * (1 * 2 + 0)) = some (quantize (some (-1 / 4 : ℚ))) := by
  obtain ⟨bytes, h1, h2, _⟩ := bufferToWav_interleaved stereo 3 (le_refl 3) 1 0
    (by decide) (by decide)
  exact ⟨bytes, h1, h2⟩

theorem scheduler_end_of_program_witness :
    (∃ tick, schedulePulses 10 (isoPlaying steady4) 20 20 = some tick
        ∧ tick.engine.started = true ∧ ∃ nxt, tick.next = some nxt)
      ∧ (∃ tick, schedulePulses 10 (isoPlaying steady4Stop) 20 20 = some tick
        ∧ tick.engine.started = false ∧ tick.pulses = [] ∧ tick.next = none)
      ∧ (scheduleUpdates (binauralPlaying steady4) 20).engine.started = true
      ∧ (scheduleUpdates (binauralPlaying steady4Stop) 20).engine.started = false := by
  have h1 := scheduler_end_of_program (isoPlaying steady4) (binauralPlaying steady4)
    (isoPlaying_started _) (binauralPlaying_started _) 10 20 20
  have h2 := scheduler_end_of_program (isoPlaying steady4Stop) (binauralPlaying steady4Stop)
    (isoPlaying_started _) (binauralPlaying_started _) 10 20 20
  have hpastI : (20 : ℚ) - (isoPlaying steady4Stop).t0 > (isoPlaying steady4Stop).totalDuration := by
    simp only [isoPlaying, IsoEngine.start, IsoEngine.create, steady4Stop_total]
    norm_num
  have hpastB : (20 : ℚ) - (binauralPlaying steady4Stop).t0
      > (binauralPlaying steady4Stop).totalDuration := by
    simp only [binauralPlaying, BinauralEngine.create, steady4Stop_total]
    norm_num
  obtain ⟨hsafe, hterm⟩ := h1.1 rfl
  obtain ⟨tick, htick⟩ := hterm (by
    have : maxAnchor (isoPlaying steady4).opts = 4 := steady4_maxAnchor
    rw [this]
    norm_num)
  exact ⟨⟨tick, htick, hsafe tick htick⟩, h2.2.1 rfl hpastI, (h1.2.2.1 rfl).1,
    (h2.2.2.2 rfl hpastB).1⟩

theorem pause_resume_elapsed_witness :
    (isoPlaying steady4).elapsed 3 = 3
      ∧ ((isoPlaying steady4).pause 3).pausedTime = 3
      ∧ ∃ tick, ((isoPlaying steady4).pause 3).startFull 10 5 3 = some tick
        ∧ tick.engine.elapsed 5 = 3 ∧ tick.engine.elapsed 7 = 5 := by
  have h := (pause_resume_elapsed (isoPlaying steady4) (binauralPlaying steady4)
    (isoPlaying_started _) (binauralPlaying_started _) 10 3 5 (by norm_num)).1
  have hel : (isoPlaying steady4).elapsed 3 = 3 := by
    simp [isoPlaying, IsoEngine.elapsed, IsoEngine.start, IsoEngine.create]
  have hp : ((isoPlaying steady4).pause 3).pausedTime = 3 := by rw [h.1, hel]
  obtain ⟨hplay, hterm⟩ := h.2.2 rfl
  obtain ⟨tick, htick⟩ := hterm (by
    have : maxAnchor (isoPlaying steady4).opts = 4 := steady4_maxAnchor
    rw [this]
    norm_num)
  rw [hp] at htick
  have hcont := h.2.1 tick (by rw [hp]; exact htick) (hplay tick (by rw [hp]; exact htick))
  rw [hp] at hcont
  refine ⟨hel, hp, tick, htick, hcont.1, ?_⟩
  rw [hcont.2 7]
  norm_num

theorem IsoEngine.startFull_past_end (fuel : Nat) (eng : IsoEngine ℚ) (now offset : ℚ)
    (hs : eng.started = false) (hstop : eng.opts.endAction ≠ EndAction.hold)
    (hpast : offset > eng.totalDuration) :
    ∃ tick, eng.startFull fuel now offset = some tick ∧ tick.engine.started = false
      ∧ tick.engine.elapsed now = 0 := by
  have hst : (eng.start now offset).started = true := by simp [IsoEngine.start, hs]
  have ho : (eng.start now offset).opts = eng.opts := by simp [IsoEngine.start, hs]
  have ht : (eng.start now offset).t0 = now - offset := by simp [IsoEngine.start, hs]
  have hd : (eng.start now offset).totalDuration = eng.totalDuration := by
    simp [IsoEngine.start, hs]
  refine ⟨⟨(eng.start now offset).stop, [], none⟩, ?_, IsoEngine.stop_started _, ?_⟩
  · simp only [IsoEngine.startFull, hs, Bool.false_eq_true, if_false]
    exact schedulePulses_stop fuel _ now now hst (by rw [ho]; exact hstop)
      (by rw [ht, hd]; linarith)
  · simp only [IsoEngine.elapsed, IsoEngine.stop_started, Bool.false_eq_true, if_false]

theorem binaural_startFull_past_end (eng : BinauralEngine ℚ) (now offset : ℚ)
    (hs : eng.started = false) (hstop : eng.opts.endAction ≠ EndAction.hold)
    (hpast : offset > eng.totalDuration) :
    (eng.startFull now offset).engine.started = false
      ∧ (eng.startFull now offset).engine.elapsed now = 0 := by
  have hcond : eng.opts.endAction ≠ EndAction.hold ∧ now - (now - offset) > eng.totalDuration :=
    ⟨hstop, by linarith⟩
  have hstarted : (eng.startFull now offset).engine.started = false := by
    simp only [BinauralEngine.startFull, hs, Bool.false_eq_true, if_false, scheduleUpdates,
      Bool.not_true, if_pos hcond]
    exact binaural_stop_started _
  exact ⟨hstarted, by simp only [BinauralEngine.elapsed, hstarted, Bool.false_eq_true, if_false]⟩

/-- C12 (as stated) fails: a `BrainwaveIso` (and likewise a `BrainwaveBinaural`)
playing the 10-second program `steady4Stop`, whose `endAction` is not `'hold'`,
is paused at elapsed 10.05, so `pausedTime = 10.05`; `start(10.05)` at clock
reading 11 then runs the scheduler, which finds elapsed above the total duration
and stops the engine at once: right after the resume `started` is false and
`elapsed()` is 0, not 10.05. -/
theorem resume_past_end_stops :
    (isoPlaying steady4Stop).started = true
      ∧ (isoPlaying steady4Stop).elapsed (201 / 20) = 201 / 20
      ∧ ((isoPlaying steady4Stop).pause (201 / 20)).pausedTime = 201 / 20
      ∧ (∀ fuel, ∃ tick,
          ((isoPlaying steady4Stop).pause (201 / 20)).startFull fuel 11 (201 / 20) = some tick
            ∧ tick.engine.started = false ∧ tick.engine.elapsed 11 = 0)
      ∧ ((binauralPlaying steady4Stop).pause (201 / 20)).pausedTime = 201 / 20
      ∧ (((binauralPlaying steady4Stop).pause (201 / 20)).startFull 11 (201 / 20)).engine.started
          = false
      ∧ (((binauralPlaying steady4Stop).pause (201 / 20)).startFull 11
          (201 / 20)).engine.elapsed 11 = 0 := by
  obtain ⟨hp1, hp2, hp3, hp4⟩ := (isoPlaying steady4Stop).pause_of_started (201 / 20) rfl
  obtain ⟨hb1, hb2, hb3⟩ := binaural_pause_of_started (binauralPlaying steady4Stop) (201 / 20) rfl
  have hbd : ((binauralPlaying steady4Stop).pause (201 / 20)).totalDuration = 10 := by
    simp [binauralPlaying, BinauralEngine.pause, BinauralEngine.stop, BinauralEngine.create,
      steady4Stop_total]
  have hid : (isoPlaying steady4Stop).totalDuration = 10 := steady4Stop_total
  have hit : (isoPlaying steady4Stop).t0 = 0 := by
    simp [isoPlaying, IsoEngine.start, IsoEngine.create]
  have hbt : (binauralPlaying steady4Stop).t0 = 0 := rfl
  have hpi : ((isoPlaying steady4Stop).pause (201 / 20)).pausedTime = 201 / 20 := by
    rw [hp1, hit]; norm_num
  have hpb : ((binauralPlaying steady4Stop).pause (201 / 20)).pausedTime = 201 / 20 := by
    rw [hb1, hbt]; norm_num
  have hbin := binaural_startFull_past_end
    ((binauralPlaying steady4Stop).pause (201 / 20)) 11 (201 / 20) hb2
    (by rw [hb3]; decide) (by rw [hbd]; norm_num)
  refine ⟨rfl, ?_, hpi, ?_, hpb, hbin.1, hbin.2⟩
  · rw [IsoEngine.elapsed, if_pos (isoPlaying_started steady4Stop), hit]
    norm_num
  · intro fuel
    exact IsoEngine.startFull_past_end fuel _ 11 (201 / 20) hp2 (by rw [hp3]; decide)
      (by rw [hp4, hid]; norm_num)

/-- C15 (evaluation of the code): 'Preset 2' keeps `totalPoints: 1` from
`defaultPreset`, so `getOpts` ignores its `stages` and builds the single stage
`{ beat: startBeatHz, duration: 1800 }`: the schedule starts at 10 Hz, lasts
1800 seconds, and is still at 10 Hz (not 5 Hz) at `t = 1800`. -/
theorem preset2_schedule :
    (getOpts preset2).startBeatHz = 10
      ∧ (getOpts preset2).stages = [⟨10, 1800⟩]
      ∧ getBeatAt 0 (getOpts preset2) = 10
      ∧ getBeatAt 1800 (getOpts preset2) = 10
      ∧ getTotalDuration (getOpts preset2) = 1800 := by
  have hst : (getOpts preset2).stages = [⟨10, 1800⟩] := by
    norm_num [getOpts, preset2, defaultPreset]
  refine ⟨rfl, hst, ?_, ?_, ?_⟩
  · norm_num [getBeatAt]
    rfl
  · have : (getOpts preset2).startBeatHz = 10 := rfl
    norm_num [getBeatAt, hst, this, getBeatAtLoop]
  · norm_num [getTotalDuration, hst]

end BrainwaveSync
